import Mathlib

/-!
Verification development for the conversation-log indexing and search tool
(Rust sources under `src/shared/`).  The functions below are shallow
embeddings of the Rust code: pure functions are translated directly, the
tantivy index writer is modelled as a list of records plus a trace of
writer operations, and the on-disk filesystem is passed explicitly.

String primitives (splitting, lowercasing, trimming, prefix tests) are
re-implemented structurally over `List Char` so that all definitions
evaluate by kernel reduction; each mirrors the corresponding Rust `str`
method.  External-library behaviour that the code depends on is modelled
where it is forced (the tantivy default analyzer: split on non-alphanumeric
characters and lowercase; `delete_term`: drop every document whose field
contains the term as a token).
-/

namespace ConvSearch

/-- Splits a character list at every separator (Rust `str::split`): the
separators are dropped and empty pieces are kept, so there is always at
least one piece. `acc` holds the current piece, reversed. -/
def splitCharsAux (p : Char → Bool) : List Char → List Char → List String
  | [], acc => [String.mk acc.reverse]
  | c :: cs, acc =>
    if p c then String.mk acc.reverse :: splitCharsAux p cs []
    else splitCharsAux p cs (c :: acc)

/-- Rust `str::split(pattern)` for a character-predicate pattern. -/
def splitChar (p : Char → Bool) (s : String) : List String :=
  splitCharsAux p s.toList []

/-- Rust `str::to_lowercase` (ASCII case suffices for the identifiers and
query text handled here). -/
def lowerStr (s : String) : String :=
  String.mk (s.toList.map Char.toLower)

/-- Rust `str::trim`. -/
def trimStr (s : String) : String :=
  String.mk (((s.toList.dropWhile Char.isWhitespace).reverse.dropWhile
    Char.isWhitespace).reverse)

/-- Rust `str::starts_with`. -/
def strStartsWith (s p : String) : Bool :=
  p.toList.isPrefixOf s.toList

/-- Rust `str::contains` (substring containment). -/
def containsSubstr (hay needle : String) : Bool :=
  (List.range (hay.toList.length + 1)).any
    (fun i => needle.toList.isPrefixOf (hay.toList.drop i))

/-- First `n` characters of a string. -/
def takeStr (s : String) (n : Nat) : String :=
  String.mk (s.toList.take n)

/-- Drop the first `n` characters of a string. -/
def dropStr (s : String) (n : Nat) : String :=
  String.mk (s.toList.drop n)

/-- Rust `str::strip_suffix`. -/
def stripSuffixStr (s suf : String) : Option String :=
  let sl := s.toList
  let tl := suf.toList
  if sl.length < tl.length then none
  else if sl.drop (sl.length - tl.length) == tl then
    some (String.mk (sl.take (sl.length - tl.length)))
  else none

/-- Tokens that tantivy's default analyzer produces for a stored text value:
maximal alphanumeric runs, lowercased (the `TEXT` fields of the schema in
`indexer.rs` all use this analyzer). -/
def tantivyTokens (s : String) : List String :=
  (splitChar (fun c => !c.isAlphanum) (lowerStr s)).filter (fun t => t ≠ "")

/-- Model of `session_id.split('-').next().unwrap_or(session_id)` from
`SearchIndexer::delete_session`. -/
def firstSegment (s : String) : String :=
  (splitChar (fun c => c == '-') s).headD s

/-- Model of `MessageType` from `models.rs`; the indexer stores `format!("{:?}", t)`,
which yields exactly the constructor name. -/
inductive MessageType
  | User
  | Assistant
  | Summary
  | System
deriving DecidableEq, Repr

/-- Model of `ConversationEntry` from `models.rs`; also stands for the stored document
that `doc_to_result` materializes back out of the index (`score` and the
computed `snippet` are display-only and omitted; `timestamp` is the stored
millisecond instant). -/
structure ConversationEntry where
  uuid : String
  parent_uuid : Option String := none
  session_id : String
  project_path : String := ""
  timestamp : Int := 0
  message_type : MessageType
  content : String
  model : Option String := none
  cwd : Option String := none
  sequence_num : Nat
  is_sidechain : Bool := false
  agent_id : Option String := none
  technologies : List String := []
  has_code : Bool := false
  code_languages : List String := []
  has_error : Bool := false
  tools_mentioned : List String := []
deriving DecidableEq, Repr

/-- Model of `SearchResult::is_displayable` from `models.rs`: the stored message type
must be `User`, `Assistant` or `Summary`, and the trimmed content must not be
the literal `"Warmup"`. -/
def isDisplayable (r : ConversationEntry) : Bool :=
  match r.message_type with
  | .System => false
  | _ => trimStr r.content != "Warmup"

/-- Model of `SearchIndexer::delete_session` combined with the index writer's
`delete_term` semantics: `delete_term` removes every document whose
`session_id` field produced a token equal to the term, and the term used is
the first hyphen-separated segment of the argument. -/
def deleteSession (idx : List ConversationEntry) (session_id : String) :
    List ConversationEntry :=
  let first_segment := firstSegment session_id
  idx.filter (fun d => !((tantivyTokens d.session_id).contains first_segment))

/-- Index fixture for the `delete_session` counterexample: one record whose
session shares its first hyphen segment with the deleted session. -/
def c1Index : List ConversationEntry :=
  [{ uuid := "u1", session_id := "aaaa-bbbb", message_type := .User,
     content := "hello", sequence_num := 0 }]

/-! ## Log parser (`parser.rs`) -/

/-- Rust `str::split_whitespace`. -/
def splitWs (s : String) : List String :=
  (splitChar (fun c => c.isWhitespace) s).filter (fun t => t ≠ "")

/-- Rust `Vec::join`. -/
def joinWith (sep : String) : List String → String
  | [] => ""
  | [x] => x
  | x :: xs => x ++ sep ++ joinWith sep xs

/-- Modelled from the spec: `truncate_content` lives in a utility module that
the snapshot does not include (`parser.rs` imports it from `super::utils`);
per §4.A it truncates at a character (not byte) boundary, terminates with an
ellipsis on overflow, and optionally collapses whitespace runs. -/
def truncate_content (s : String) (max_chars : Nat) (collapse_whitespace : Bool) :
    String :=
  let s := if collapse_whitespace then joinWith " " (splitWs s) else s
  if s.toList.length ≤ max_chars then s
  else takeStr s max_chars ++ "…"

/-- The `limits` section of the configuration; the two tool budgets are the
per-block truncation sizes used by the parser. -/
structure Limits where
  per_file_chars : Nat := 150000
  tool_input_max_chars : Nat := 500
  tool_result_max_chars : Nat := 500
deriving DecidableEq, Repr

/-- A `tool_result` block's `content` value: a string, an array of objects
whose `"text"` fields are collected, or any other JSON shape. -/
inductive ToolResultContent
  | str (s : String)
  | arr (items : List (Option String))
  | other
deriving DecidableEq, Repr

/-- One element of a content array, as accessed by `parse_content_block`
(`input` stands for the JSON-serialized `input` value). -/
structure RawBlock where
  block_type : Option String := none
  text : Option String := none
  thinking : Option String := none
  name : Option String := none
  input : Option String := none
  is_error : Option Bool := none
  content : Option ToolResultContent := none
deriving DecidableEq, Repr

/-- The `message.content` JSON value: a plain string, an array of blocks, or
any other shape. -/
inductive ContentValue
  | str (s : String)
  | arr (blocks : List RawBlock)
  | other
deriving DecidableEq, Repr

/-- Model of `RawMessage` from `models.rs`. -/
structure RawMessage where
  role : Option String := none
  content : Option ContentValue := none
  model : Option String := none
deriving DecidableEq, Repr

/-- Model of `RawJsonlMessage` from `models.rs`: one successfully JSON-parsed log
line. -/
structure RawJsonlMessage where
  uuid : Option String := none
  parent_uuid : Option String := none
  session_id : Option String := none
  message_type : Option String := none
  timestamp : Option String := none
  cwd : Option String := none
  message : Option RawMessage := none
  is_sidechain : Option Bool := none
  agent_id : Option String := none
  summary : Option String := none
  leaf_uuid : Option String := none
deriving DecidableEq, Repr

/-- Model of `ContentBlock` from `models.rs`. -/
inductive ContentBlock
  | text (t : String)
  | thinking (t : String)
  | toolUse (name : String) (input_preview : String)
  | toolResult (content_preview : String) (is_error : Bool)
deriving DecidableEq, Repr

/-- Model of `JsonlParser::parse_content_block`. -/
def parseContentBlock (cfg : Limits) (block : RawBlock) : Option ContentBlock :=
  match block.block_type with
  | none => none
  | some t =>
    match t with
    | "text" => block.text.map ContentBlock.text
    | "thinking" => block.thinking.map ContentBlock.thinking
    | "tool_use" =>
      match block.name with
      | none => none
      | some name =>
        let input_preview :=
          match block.input with
          | some v => truncate_content v cfg.tool_input_max_chars false
          | none => ""
        some (.toolUse name input_preview)
    | "tool_result" =>
      let is_error := block.is_error.getD false
      let content_preview :=
        match block.content with
        | some (.str s) => truncate_content s cfg.tool_result_max_chars false
        | some (.arr items) =>
          truncate_content (joinWith " " (items.filterMap id))
            cfg.tool_result_max_chars false
        | some .other => ""
        | none => ""
      some (.toolResult content_preview is_error)
    | _ => none

/-- Accumulator of the block loop in `extract_searchable_content`. -/
structure ExtractOut where
  parts : List String
  has_error : Bool
  tools_used : List String
deriving DecidableEq, Repr

/-- The block loop of `JsonlParser::extract_searchable_content`. -/
def extractBlocksAux (cfg : Limits) : List RawBlock → ExtractOut → ExtractOut
  | [], acc => acc
  | b :: bs, acc =>
    match parseContentBlock cfg b with
    | none => extractBlocksAux cfg bs acc
    | some (.text t) =>
      extractBlocksAux cfg bs { acc with parts := acc.parts ++ [t] }
    | some (.thinking t) =>
      extractBlocksAux cfg bs
        { acc with parts := acc.parts ++ ["[thinking] " ++ t] }
    | some (.toolUse name input_preview) =>
      let acc := { acc with tools_used := acc.tools_used ++ [name] }
      let acc :=
        if input_preview != "" then
          { acc with parts := acc.parts ++ ["[" ++ name ++ "] " ++ input_preview] }
        else acc
      extractBlocksAux cfg bs acc
    | some (.toolResult content_preview is_error) =>
      if is_error then
        extractBlocksAux cfg bs
          { acc with has_error := true,
                     parts := acc.parts ++ ["[error] " ++ content_preview] }
      else if trimStr content_preview != "" then
        extractBlocksAux cfg bs
          { acc with parts := acc.parts ++ ["[result] " ++ content_preview] }
      else extractBlocksAux cfg bs acc

/-- Model of `JsonlParser::extract_searchable_content`. -/
def extractSearchableContent (cfg : Limits) (raw : RawJsonlMessage) :
    String × Bool × List String :=
  match raw.message with
  | none => ("", false, [])
  | some m =>
    match m.content with
    | none => ("", false, [])
    | some (.str text) => (text, false, [])
    | some (.arr blocks) =>
      let out := extractBlocksAux cfg blocks ⟨[], false, []⟩
      (joinWith "\n" out.parts, out.has_error, out.tools_used)
    | some .other => ("", false, [])

/-- Components of a filesystem path as `std::path::Path::components` yields
them for ordinary paths: a root component for absolute paths, then the
non-empty, non-`.` segments. -/
def pathComponents (p : String) : List String :=
  let parts := (splitChar (fun c => c == '/') p).filter
    (fun c => c ≠ "" ∧ c ≠ ".")
  if strStartsWith p "/" then "/" :: parts else parts

/-- Model of `JsonlParser::extract_project_name_from_path`: walk components from the
end, skip the common directory names, return the first component that does
not start with `.` and has length over one; fall back to the path's file
name. -/
def extractProjectNameFromPath (cwd : String) : String :=
  let comps := pathComponents cwd
  match comps.reverse.find? (fun c =>
      !(["src", "lib", "bin", "target", "node_modules", ".git"].contains c)
      && !(strStartsWith c ".") && decide (1 < c.toList.length)) with
  | some c => c
  | none => (comps.filter (fun c => c ≠ "/")).getLastD "unknown"

/-- The agent-file heuristic of `parse_file`: a file named
`agent-<id>.jsonl` supplies `<id>` as the fallback agent id. -/
def fileAgentId (file_name : String) : Option String :=
  if strStartsWith file_name "agent-" then
    stripSuffixStr (dropStr file_name 6) ".jsonl"
  else none

/-- The result tuple of `metadata::extract_all_metadata` (the extractor's
pattern table is regex-based and passed in as a parameter below). -/
structure ExtractedMeta where
  technologies : List String := []
  tools_mentioned : List String := []
  code_languages : List String := []
  has_code : Bool := false
  has_error : Bool := false
deriving DecidableEq, Repr

/-- Model of `JsonlParser::parse_raw_message`.  `parseTimestamp` stands for chrono's
RFC 3339 parse (`timestamp_str.parse().ok()`), `extractAllMetadata` for
`metadata::extract_all_metadata`; both are external to this module's logic
and supplied as parameters. -/
def parseRawMessage (cfg : Limits) (parseTimestamp : String → Option Int)
    (extractAllMetadata : String → ExtractedMeta)
    (raw : RawJsonlMessage) (fallback_project : String) (sequence_num : Nat)
    (file_agent_id : Option String) : Option ConversationEntry :=
  match raw.message_type with
  | none => none
  | some msg_type =>
    if msg_type == "file-history-snapshot" || msg_type == "queue-operation" then
      none
    else if !(msg_type == "user" || msg_type == "assistant" || msg_type == "summary") then
      none
    else
      match raw.uuid with
      | none => none
      | some uuid =>
        match raw.session_id with
        | none => none
        | some session_id =>
          match raw.timestamp with
          | none => none
          | some timestamp_str =>
            match parseTimestamp timestamp_str with
            | none => none
            | some timestamp =>
              let message_type : MessageType :=
                if msg_type == "user" then .User
                else if msg_type == "assistant" then .Assistant
                else if msg_type == "summary" then .Summary
                else .System
              let ext :=
                if msg_type == "summary" then
                  (raw.summary.getD "", false, ([] : List String))
                else extractSearchableContent cfg raw
              let content := ext.1
              let has_error := ext.2.1
              let tools_used := ext.2.2
              if trimStr content == "" then none
              else
                let project_path :=
                  match raw.cwd with
                  | some cwd => extractProjectNameFromPath cwd
                  | none => fallback_project
                let model := raw.message.bind (fun m => m.model)
                let agent_id := raw.agent_id.orElse (fun _ => file_agent_id)
                let meta := extractAllMetadata content
                let all_tools := tools_used.foldl
                  (fun acc t => if acc.contains t then acc else acc ++ [t])
                  meta.tools_mentioned
                some {
                  uuid := uuid,
                  parent_uuid := raw.parent_uuid,
                  session_id := session_id,
                  project_path := project_path,
                  timestamp := timestamp,
                  message_type := message_type,
                  content := content,
                  model := model,
                  cwd := raw.cwd,
                  sequence_num := sequence_num,
                  is_sidechain := raw.is_sidechain.getD false,
                  agent_id := agent_id,
                  technologies := meta.technologies,
                  has_code := meta.has_code,
                  code_languages := meta.code_languages,
                  has_error := has_error || meta.has_error,
                  tools_mentioned := all_tools }

/-- One line of a log file, classified the way `parse_file` sees it: empty
after trimming, rejected by `serde_json::from_str`, or a parsed
`RawJsonlMessage`. -/
inductive LineValue
  | blank
  | invalidJson
  | msg (raw : RawJsonlMessage)
deriving DecidableEq, Repr

/-- The two pieces of a log file's path that `parse_file` inspects: the
containing directory's name (`extract_project_name`) and the file name
(agent-file detection). -/
structure LogFilePath where
  parentName : String
  fileName : String
deriving DecidableEq, Repr

/-- The line loop of `JsonlParser::parse_file`: `n` is `sequence_counter`,
incremented only when a record is kept. -/
def parseLinesAux (cfg : Limits) (pts : String → Option Int)
    (em : String → ExtractedMeta) (project : String) (fai : Option String) :
    List LineValue → Nat → List ConversationEntry
  | [], _ => []
  | .blank :: ls, n => parseLinesAux cfg pts em project fai ls n
  | .invalidJson :: ls, n => parseLinesAux cfg pts em project fai ls n
  | .msg raw :: ls, n =>
    match parseRawMessage cfg pts em raw project n fai with
    | some e => e :: parseLinesAux cfg pts em project fai ls (n + 1)
    | none => parseLinesAux cfg pts em project fai ls n

/-- Model of `JsonlParser::parse_file` on an already-read file (BOM handling and I/O
happen in `read_text_file`; a read failure is modelled at the caller). -/
def parseFile (cfg : Limits) (pts : String → Option Int)
    (em : String → ExtractedMeta) (path : LogFilePath)
    (lines : List LineValue) : List ConversationEntry :=
  parseLinesAux cfg pts em path.parentName (fileAgentId path.fileName) lines 0

/-! ## Search engine (`search.rs`) -/

/-- Stable insertion sort standing in for Rust's stable `sort_by` /
`sort_by_key`: an element is inserted after every already-placed element
that strictly precedes it, so equal keys keep their original order. -/
def insertBy {α : Type} (lt : α → α → Bool) (e : α) : List α → List α
  | [] => [e]
  | x :: xs => if lt x e then x :: insertBy lt e xs else e :: x :: xs

/-- Stable sort by the strict order `lt` (see `insertBy`). -/
def sortBy {α : Type} (lt : α → α → Bool) (l : List α) : List α :=
  l.foldr (insertBy lt) []

/-- Model of `sort_by_key(|m| m.sequence_num)`. -/
def sortBySeq (l : List ConversationEntry) : List ConversationEntry :=
  sortBy (fun a b => a.sequence_num < b.sequence_num) l

/-- Model of `MAX_SESSION_MESSAGES` from `search.rs`. -/
def MAX_SESSION_MESSAGES : Nat := 5000

/-- The AND-of-term-queries that `get_session_messages` (and the session
filter of `search`) builds: the input is split on hyphens and every segment
must occur among the tokens of the stored `session_id`. -/
def sessionSegmentsMatch (input : String) (d : ConversationEntry) : Bool :=
  (splitChar (fun c => c == '-') input).all
    (fun seg => (tantivyTokens d.session_id).contains seg)

/-- The post-filter of `get_session_messages`: exact or prefix match on the
stored `session_id`. -/
def sessionPostFilter (input : String) (d : ConversationEntry) : Bool :=
  d.session_id == input || strStartsWith d.session_id input

/-- Model of `SearchEngine::get_session_messages`.  Retrieval order (tantivy's score
order) is abstracted as index order; the `take` is `TopDocs::with_limit`. -/
def getSessionMessages (idx : List ConversationEntry) (session_id : String) :
    List ConversationEntry :=
  let hits := (idx.filter (sessionSegmentsMatch session_id)).take MAX_SESSION_MESSAGES
  let results := hits.filter (sessionPostFilter session_id)
  sortBySeq results

/-- Model of `Path::file_name().unwrap_or(the whole string)` as used on project
filters and project paths. -/
def fileNameOr (p : String) : String :=
  match ((pathComponents p).filter (fun c => c ≠ "/")).getLast? with
  | some c => c
  | none => p

/-- Model of `project_filter_segments` from `search.rs`: basename of the filter split
on non-alphanumeric characters, empty pieces dropped. -/
def projectFilterSegments (filter : String) : List String :=
  (splitChar (fun c => !c.isAlphanum) (fileNameOr filter)).filter
    (fun s => s ≠ "")

/-- Model of `build_project_query`: AND of term queries, each segment lowercased,
against the tokens of the stored `project` field (which the indexer fills
with `entry.project_path`). -/
def projectQueryMatches (filter : String) (d : ConversationEntry) : Bool :=
  (projectFilterSegments filter).all
    (fun seg => (tantivyTokens d.project_path).contains (lowerStr seg))

/-- Model of `project_matches` from `search.rs` (the post-filter): basenames equal. -/
def projectMatches (project_path filter : String) : Bool :=
  fileNameOr filter == fileNameOr project_path

/-- Model of `doc_to_result` materializes `project_path` from the stored `cwd` field,
falling back to the stored `project` field. -/
def resultProjectPath (d : ConversationEntry) : String :=
  d.cwd.getD d.project_path

/-- Model of `SortOrder` from `models.rs`. -/
inductive SortOrder
  | Relevance
  | DateDesc
  | DateAsc
deriving DecidableEq, Repr

/-- Model of `SearchQuery` from `models.rs`.  The free-text part is parsed by
tantivy's `QueryParser`; its already-parsed form is supplied to `searchRun`
as a predicate, so `text` itself is carried only for completeness. -/
structure SearchQuery where
  text : String := ""
  project_filter : Option String := none
  session_filter : Option String := none
  limit : Nat := 0
  sort_by : SortOrder := .Relevance
  after : Option Int := none
  before : Option Int := none

/-- Model of the retrieval and post-filtering of `SearchEngine::search`,
with the parsed text query abstracted as `textMatch`: combined query, the
top-`limit` retrieval of `TopDocs::with_limit(query.limit)`, then the
session-prefix, project and date post-filters.  This is the collector's
behaviour on its validity domain `limit ≥ 1`; constructing the collector
with `limit = 0` panics instead, which `searchOutcome` below models. -/
def searchRun (idx : List ConversationEntry) (textMatch : ConversationEntry → Bool)
    (q : SearchQuery) : List ConversationEntry :=
  let query := fun d => textMatch d
    && (match q.project_filter with
        | some pf => projectQueryMatches pf d
        | none => true)
    && (match q.session_filter with
        | some sf => sessionSegmentsMatch sf d
        | none => true)
  let top := (idx.filter query).take q.limit
  top.filter (fun d =>
    (match q.session_filter with
     | some sf => strStartsWith d.session_id sf
     | none => true)
    && (match q.project_filter with
        | some pf => projectMatches (resultProjectPath d) pf
        | none => true)
    && (match q.after with
        | some a => !(d.timestamp < a)
        | none => true)
    && (match q.before with
        | some b => !(b < d.timestamp)
        | none => true))

/-- Model of tantivy's `TopCollector::with_limit` assertion, reached from
`TopDocs::with_limit(query.limit)` in `search`: it asserts `limit >= 1`
("Limit must be strictly greater than 0.") and panics otherwise.  The panic
is modelled as `none`. -/
def topDocsWithLimitCheck (limit : Nat) : Option Unit :=
  if 1 ≤ limit then some () else none

/-- Model of `SearchEngine::search` end to end, with the collector's panic
path explicit: building `TopDocs::with_limit(query.limit)` panics when
`query.limit = 0` (the `none` outcome); otherwise retrieval and
post-filtering proceed as in `searchRun`. -/
def searchOutcome (idx : List ConversationEntry)
    (textMatch : ConversationEntry → Bool) (q : SearchQuery) :
    Option (List ConversationEntry) :=
  (topDocsWithLimitCheck q.limit).map (fun _ => searchRun idx textMatch q)

/-- Model of `SearchResultWithContext` from `search.rs`. -/
structure SearchResultWithContext where
  matched_message : ConversationEntry
  context_messages : List ConversationEntry
  match_index : Nat
  total_session_messages : Nat
deriving DecidableEq, Repr

/-- The displayable-filter loop of `search_with_context`: walks the raw
window, keeps displayable messages, and records the position of the matched
message (global index `idxm`, window starting at `start`) at the moment it
is pushed; `nmi` starts at 0. -/
def windowAcc (start idxm : Nat) :
    List ConversationEntry → Nat → List ConversationEntry → Nat →
    List ConversationEntry × Nat
  | [], _, acc, nmi => (acc, nmi)
  | msg :: rest, i, acc, nmi =>
    if isDisplayable msg then
      let nmi' := if start + i == idxm then acc.length else nmi
      windowAcc start idxm rest (i + 1) (acc ++ [msg]) nmi'
    else windowAcc start idxm rest (i + 1) acc nmi

/-- Lines 261–275 of `search.rs`: clamp the raw window
`[idx - before, idx + after]` to the session bounds, slice it, and run the
displayable filter, producing the context list and the recomputed match
index. -/
def contextCore (sm : List ConversationEntry) (idxm context_before context_after : Nat) :
    List ConversationEntry × Nat :=
  let start := idxm - context_before
  let endd := min (idxm + context_after + 1) sm.length
  let slice := (sm.drop start).take (endd - start)
  windowAcc start idxm slice 0 [] 0

/-- The per-match body of `SearchEngine::search_with_context`: fetch the
session, re-sort by `sequence_num`, locate the match by uuid (falling back
to `sequence_num`), slice the clamped raw window, re-filter to displayable
messages, and synthesize `[match]` whenever the session is empty, the match
cannot be located, or the filter empties the window. -/
def contextForMatch (idx : List ConversationEntry) (context_before context_after : Nat)
    (m : ConversationEntry) : SearchResultWithContext :=
  let sm0 := getSessionMessages idx m.session_id
  if sm0.isEmpty then
    { matched_message := m, context_messages := [m], match_index := 0,
      total_session_messages := 1 }
  else
    let sm := sortBySeq sm0
    let total := (sm.filter isDisplayable).length
    let midx := (sm.findIdx? (fun x => x.uuid == m.uuid)).orElse
      (fun _ => sm.findIdx? (fun x => x.sequence_num == m.sequence_num))
    match midx with
    | some idxm =>
      let cw := contextCore sm idxm context_before context_after
      if cw.1.isEmpty then
        { matched_message := m, context_messages := [m], match_index := 0,
          total_session_messages := total }
      else
        { matched_message := m, context_messages := cw.1, match_index := cw.2,
          total_session_messages := total }
    | none =>
      { matched_message := m, context_messages := [m], match_index := 0,
        total_session_messages := total }

/-- Model of `SearchEngine::search_with_context`: run the search, build each row's
context, then apply the requested sort order across rows. -/
def searchWithContext (idx : List ConversationEntry)
    (textMatch : ConversationEntry → Bool) (q : SearchQuery)
    (context_before context_after : Nat) : List SearchResultWithContext :=
  let rows := (searchRun idx textMatch q).map
    (contextForMatch idx context_before context_after)
  match q.sort_by with
  | .DateDesc =>
    sortBy (fun x y => y.matched_message.timestamp < x.matched_message.timestamp) rows
  | .DateAsc =>
    sortBy (fun x y => x.matched_message.timestamp < y.matched_message.timestamp) rows
  | .Relevance => rows

/-- The per-window score of `generate_snippet`: how many query words occur in
the window text (joined with single spaces), case-insensitively. -/
def windowScore (query_words : List String) (window : List String) : Nat :=
  query_words.countP
    (fun qw => containsSubstr (lowerStr (joinWith " " window)) (lowerStr qw))

/-- The best-window fold of `generate_snippet`: scan scores left to right,
updating only on a strictly larger score (`best_start`/`best_score` start at
0), so the leftmost maximum wins. -/
def bestWindowAux : List Nat → Nat → Nat → Nat → Nat × Nat
  | [], _, bs, bsc => (bs, bsc)
  | s :: rest, i, bs, bsc =>
    if bsc < s then bestWindowAux rest (i + 1) i s
    else bestWindowAux rest (i + 1) bs bsc

/-- Model of `SearchEngine::generate_snippet`. -/
def generateSnippet (content query : String) : String :=
  let words := splitWs content
  let query_words := splitWs query
  if words.length ≤ 30 then content
  else
    let scores := (List.range (words.length - 30 + 1)).map
      (fun i => windowScore query_words ((words.drop i).take 30))
    let best_start := (bestWindowAux scores 0 0 0).1
    let snippet_words := (words.drop best_start).take
      (min (best_start + 30) words.length - best_start)
    let snippet := joinWith " " snippet_words
    let snippet := if 0 < best_start then "..." ++ snippet else snippet
    let snippet := if best_start + 30 < words.length then snippet ++ "..." else snippet
    snippet

/-! ## Index writer and cache manager (`indexer.rs`, `cache.rs`) -/

/-- One queued operation on the index writer: `delete_term` on the session
field, `add_document`, or `commit`. -/
inductive WriterOp
  | delete (session_id : String)
  | add (e : ConversationEntry)
  | commit
deriving DecidableEq, Repr

/-- The logical index content after a sequence of writer operations:
deletions follow `delete_session`'s first-segment token semantics, appends
add the document, `commit` only publishes (no content change). -/
def applyOp (idx : List ConversationEntry) : WriterOp → List ConversationEntry
  | .delete sid => deleteSession idx sid
  | .add e => idx ++ [e]
  | .commit => idx

/-- Fold of `applyOp` over a trace. -/
def applyOps (idx : List ConversationEntry) (ops : List WriterOp) :
    List ConversationEntry :=
  ops.foldl applyOp idx

/-- Model of `SearchIndexer::index_conversations`: add every entry, then commit. -/
def indexConversationsOps (entries : List ConversationEntry) : List WriterOp :=
  entries.map .add ++ [.commit]

/-- Is this writer operation an append? -/
def isAddOp : WriterOp → Bool
  | .add _ => true
  | _ => false

/-- Model of `format!("{file_size:x}")`. -/
def hexString (n : Nat) : String :=
  String.mk (Nat.toDigits 16 n)

/-- Model of `FileMetadata` from `cache.rs` (the per-file fingerprint). Times are
abstract instants. -/
structure FileMetadata where
  size_hex : String
  size : Nat
  modified : Nat
  indexed_at : Nat
  entry_count : Nat
deriving DecidableEq, Repr

/-- Model of `CacheMetadata` from `cache.rs`; the `HashMap` is modelled as an
association list keyed by the absolute path. -/
structure CacheMetadata where
  indexed_files : List (String × FileMetadata) := []
  last_full_scan : Option Nat := none
  index_version : Nat := 0
  total_entries : Nat := 0
deriving DecidableEq, Repr

/-- Model of `HashMap::get` on the fingerprint map. -/
def lookupFile (m : List (String × FileMetadata)) (p : String) :
    Option FileMetadata :=
  (m.find? (fun kv => kv.1 == p)).map (fun kv => kv.2)

/-- Model of `HashMap::remove` on the fingerprint map. -/
def removeFile (m : List (String × FileMetadata)) (p : String) :
    List (String × FileMetadata) :=
  m.filter (fun kv => kv.1 != p)

/-- Model of `HashMap::insert` on the fingerprint map (replaces any existing entry). -/
def insertFile (m : List (String × FileMetadata)) (p : String)
    (fm : FileMetadata) : List (String × FileMetadata) :=
  removeFile m p ++ [(p, fm)]

/-- Model of `CacheManager::needs_indexing` for a file whose on-disk size and mtime
are `size`/`mtime`: true iff no fingerprint exists or either differs. -/
def needsIndexing (md : CacheMetadata) (p : String) (size mtime : Nat) : Bool :=
  match lookupFile md.indexed_files p with
  | some cached => cached.size != size || cached.modified != mtime
  | none => true

/-- The on-disk state of one log file during a sweep: its stat data and the
outcome of `read_text_file` (`none` models an I/O failure, which
`parse_file` propagates as `Err`). -/
structure DiskFile where
  size : Nat
  mtime : Nat
  readResult : Option (List LineValue)
deriving DecidableEq, Repr

/-- One input to `update_incremental`: the path (map key), the two path
components the parser inspects, and the disk state (`none` models
`!file_path.exists()`). -/
structure SweepFile where
  path : String
  logPath : LogFilePath
  disk : Option DiskFile
deriving DecidableEq, Repr

/-- The loop state of `CacheManager::update_incremental`: the evolving
metadata, the writer-operation trace issued so far, and the two local
counters of the source. -/
structure SweepState where
  metadata : CacheMetadata
  ops : List WriterOp
  files_processed : Nat
  total_entries_added : Nat

/-- The writer operations issued for one parsed file inside
`update_incremental`: nothing when the parse produced no records, otherwise
`delete_session(first.session_id)` followed by `index_conversations`. -/
def fileOpsFor (entries : List ConversationEntry) : List WriterOp :=
  if 0 < entries.length then
    (match entries.head? with
     | some first => [.delete first.session_id]
     | none => []) ++ indexConversationsOps entries
  else []

/-- One iteration of the file loop in `CacheManager::update_incremental`:
evict vanished files, skip unchanged ones, otherwise parse; a successful
parse with records issues `delete_session(first.session_id)` then
`index_conversations` (appends + commit), and in every successful-parse case
the fingerprint is rewritten; a read failure only logs. -/
def processFile (cfg : Limits) (pts : String → Option Int)
    (em : String → ExtractedMeta) (now : Nat) (st : SweepState)
    (f : SweepFile) : SweepState :=
  match f.disk with
  | none =>
    { st with metadata :=
        { st.metadata with
          indexed_files := removeFile st.metadata.indexed_files f.path } }
  | some d =>
    if !(needsIndexing st.metadata f.path d.size d.mtime) then st
    else
      match d.readResult with
      | none => st
      | some lines =>
        let entries := parseFile cfg pts em f.logPath lines
        let entry_count := entries.length
        let fm : FileMetadata :=
          { size_hex := hexString d.size, size := d.size, modified := d.mtime,
            indexed_at := now, entry_count := entry_count }
        { metadata :=
            { st.metadata with
              indexed_files := insertFile st.metadata.indexed_files f.path fm },
          ops := st.ops ++ fileOpsFor entries,
          files_processed := st.files_processed + 1,
          total_entries_added := st.total_entries_added + entry_count }

/-- Model of `CacheManager::update_incremental`: fold the file loop, then bump
`total_entries` by the records parsed this sweep, stamp `last_full_scan`,
and save the sidecar.  Returns the new metadata and the writer trace. -/
def updateIncremental (cfg : Limits) (pts : String → Option Int)
    (em : String → ExtractedMeta) (now : Nat) (md0 : CacheMetadata)
    (files : List SweepFile) : CacheMetadata × List WriterOp :=
  let st := files.foldl (processFile cfg pts em now)
    { metadata := md0, ops := [], files_processed := 0, total_entries_added := 0 }
  ({ st.metadata with
      total_entries := st.metadata.total_entries + st.total_entries_added,
      last_full_scan := some now },
   st.ops)

/-- Well-formed writer traces: a sequence of per-file blocks, each deleting
the session of the first appended entry, then appending that file's entries,
then committing. -/
inductive TraceOk : List WriterOp → Prop
  | nil : TraceOk []
  | block (first : ConversationEntry) (rest : List ConversationEntry)
      (tail : List WriterOp) : TraceOk tail →
      TraceOk (WriterOp.delete first.session_id ::
        ((first :: rest).map WriterOp.add ++ WriterOp.commit :: tail))

/-! ## Sidecar persistence (`CacheManager::save_metadata`) -/

/-- A filesystem operation issued while saving the sidecar. -/
inductive FsOp
  | createDirAll (path : String)
  | writeFile (path : String) (content : String)
  | rename (src dst : String)
deriving DecidableEq, Repr

/-- Model of `CacheManager::save_metadata`: `fs::create_dir_all(&self.cache_dir)`
followed by a direct `fs::write(&self.metadata_file, content)`, where
`content` is `serde_json::to_string_pretty(&self.metadata)`. -/
def saveMetadataOps (cache_dir metadata_file content : String) : List FsOp :=
  [.createDirAll cache_dir, .writeFile metadata_file content]

/-- Is this operation a rename? -/
def isRenameOp : FsOp → Bool
  | .rename _ _ => true
  | _ => false

/-- Filesystem contents by path. -/
def Fs : Type := String → Option String

/-- Effect of one completed filesystem operation. -/
def runOp (fs : Fs) : FsOp → Fs
  | .createDirAll _ => fs
  | .writeFile p c => fun q => if q == p then some c else fs q
  | .rename src dst => fun q =>
      if q == dst then fs src else if q == src then none else fs q

/-- Modelled from the spec: the platform write semantics that §3's
"written atomically (temp-file + rename)" appeals to.  A concurrent reader
of `target` can observe the state before each operation, every prefix of the
new content while a plain write to `target` is in progress (plain writes are
not atomic), and the state after the last operation; renames expose no
intermediate state. -/
def readerStates (target : String) : Fs → List FsOp → List (Option String)
  | fs, [] => [fs target]
  | fs, op :: rest =>
    let mid : List (Option String) :=
      match op with
      | .writeFile p c =>
        if p == target then
          (List.range (c.toList.length + 1)).map (fun k => some (takeStr c k))
        else []
      | _ => []
    (fs target :: mid) ++ readerStates target (runOp fs op) rest

/-- An initially empty filesystem. -/
def emptyFs : Fs := fun _ => none

/-! ## Concrete fixtures used by counterexamples and witnesses -/

/-- Default limits. -/
def cfg0 : Limits := {}

/-- A timestamp parser that accepts everything (stands in for chrono on the
well-formed fixture timestamps). -/
def pts0 : String → Option Int := fun _ => some 0

/-- A metadata extractor that finds nothing. -/
def em0 : String → ExtractedMeta := fun _ => {}

/-- Fixture log-file path. -/
def lp0 : LogFilePath := { parentName := "proj", fileName := "x.jsonl" }

/-- A well-formed user line in session `aaaa-1111`. -/
def rawA : RawJsonlMessage :=
  { uuid := some "u1", session_id := some "aaaa-1111",
    message_type := some "user", timestamp := some "2025-01-01T10:00:00Z",
    message := some { content := some (.str "hello") } }

/-- A well-formed user line in session `bbbb-2222`. -/
def rawB : RawJsonlMessage :=
  { uuid := some "u2", session_id := some "bbbb-2222",
    message_type := some "user", timestamp := some "2025-01-01T10:00:01Z",
    message := some { content := some (.str "world") } }

/-- Two changed files, one record each, for the batch-commit counterexample. -/
def sweepFilesC2 : List SweepFile :=
  [ { path := "/p/a.jsonl", logPath := lp0,
      disk := some { size := 10, mtime := 1, readResult := some [.msg rawA] } },
    { path := "/p/b.jsonl", logPath := lp0,
      disk := some { size := 11, mtime := 2, readResult := some [.msg rawB] } } ]

/-- Disk state of a file whose every line is malformed JSON. -/
def c7Disk : DiskFile :=
  { size := 5, mtime := 7, readResult := some [.invalidJson, .invalidJson] }

/-- The malformed-lines sweep input. -/
def c7File : SweepFile :=
  { path := "/p/bad.jsonl", logPath := lp0, disk := some c7Disk }

/-- Fixture session id (a full UUID). -/
def c4Session : String := "aabbccdd-1122-3344-5566-778899001122"

/-- One indexed record of session `c4Session`. -/
def c4Doc : ConversationEntry :=
  { uuid := "u1", session_id := c4Session, message_type := .User,
    content := "first", sequence_num := 0 }

/-- Index holding just `c4Doc`. -/
def c4Index : List ConversationEntry := [c4Doc]

/-- A non-displayable (System) record that a search can still match. -/
def c5Sys : ConversationEntry :=
  { uuid := "u1", session_id := "cccc-dddd", message_type := .System,
    content := "target", sequence_num := 0 }

/-- A displayable neighbour in the same session. -/
def c5User : ConversationEntry :=
  { uuid := "u2", session_id := "cccc-dddd", message_type := .User,
    content := "other", sequence_num := 1 }

/-- Index for the context-window counterexample. -/
def c5Index : List ConversationEntry := [c5Sys, c5User]

/-- A parsed text query matching exactly the content `"target"`. -/
def c5Match : ConversationEntry → Bool := fun d => d.content == "target"

/-- The row that `search_with_context` produces for the fixture above. -/
def c5Row : SearchResultWithContext :=
  { matched_message := c5Sys, context_messages := [c5User], match_index := 0,
    total_session_messages := 1 }

/-- First sweep of the `total_entries` scenario: the file exists but holds
only a blank line, so it is fingerprinted with zero records. -/
def c10File1 : SweepFile :=
  { path := "/p/f.jsonl", logPath := lp0,
    disk := some { size := 3, mtime := 1, readResult := some [.blank] } }

/-- Second sweep: the same file, modified, now holding one good record. -/
def c10File2 : SweepFile :=
  { path := "/p/f.jsonl", logPath := lp0,
    disk := some { size := 9, mtime := 2, readResult := some [.msg rawA] } }

/-- Metadata after the first `total_entries` sweep. -/
def c10Md1 : CacheMetadata :=
  (updateIncremental cfg0 pts0 em0 100 {} [c10File1]).1

/-- Result of the second `total_entries` sweep. -/
def c10Run2 : CacheMetadata × List WriterOp :=
  updateIncremental cfg0 pts0 em0 200 c10Md1 [c10File2]

/-- Index contents after both sweeps, starting from an empty index. -/
def c10Idx2 : List ConversationEntry :=
  applyOps (applyOps [] (updateIncremental cfg0 pts0 em0 100 {} [c10File1]).2)
    c10Run2.2

/-- Sidecar path fixture. -/
def c9Target : String := "/cache/cache-metadata.json"

/-- Content of 31 whitespace-separated tokens whose final token is the only match for
the query `"bb"`. -/
def c8Long : String :=
  "a a a a a a a a a a a a a a a a a a a a a a a a a a a a a a bb"

/-! ## Theorems -/

/-- Claim C1 counterexample.  The claim says `delete_session(s)` followed by
commit removes exactly the records with `session_id = s`, sparing records
that merely share the first hyphen-separated segment of `s`.  It is false:
the index holds one record of session `"aaaa-bbbb"`, yet deleting session
`"aaaa-cccc"` — a different id sharing only the first segment — empties the
index. -/
theorem C1_counterexample :
    (c1Index.map (fun d => d.session_id) = ["aaaa-bbbb"] ∧
      "aaaa-bbbb" ≠ "aaaa-cccc") ∧
    deleteSession c1Index "aaaa-cccc" = [] := by
  decide

/-- Claim C1 amended.  `delete_session(s)` followed by commit removes exactly
the records whose stored `session_id` contains the first hyphen-separated
segment of `s` among its analyzer tokens; every record whose `session_id`
does not contain that token remains in the index unchanged. -/
theorem C1_amended (idx : List ConversationEntry) (s : String)
    (d : ConversationEntry) :
    d ∈ deleteSession idx s ↔
      d ∈ idx ∧ firstSegment s ∉ tantivyTokens d.session_id := by
  simp [deleteSession, List.mem_filter]

/-- Claim C2 counterexample.  The claim says a single commit covers the whole
`update_incremental` batch, with no intermediate commits between files.  A
sweep over two changed one-record files issues two commits, and the first
commit sits between the first file's append and the second file's delete. -/
theorem C2_counterexample :
    (updateIncremental cfg0 pts0 em0 0 {} sweepFilesC2).2.count WriterOp.commit = 2 ∧
    (updateIncremental cfg0 pts0 em0 0 {} sweepFilesC2).2[2]? = some WriterOp.commit ∧
    (updateIncremental cfg0 pts0 em0 0 {} sweepFilesC2).2[3]? =
      some (WriterOp.delete "bbbb-2222") := by
  decide

/-- Concatenating well-formed writer traces yields a well-formed trace. -/
theorem traceOk_append {a b : List WriterOp} (ha : TraceOk a) (hb : TraceOk b) :
    TraceOk (a ++ b) := by
  induction ha with
  | nil => simpa using hb
  | block first rest tail _ ih =>
    have hshape : (WriterOp.delete first.session_id ::
        ((first :: rest).map WriterOp.add ++ WriterOp.commit :: tail)) ++ b =
        WriterOp.delete first.session_id ::
        ((first :: rest).map WriterOp.add ++ WriterOp.commit :: (tail ++ b)) := by
      simp
    rw [hshape]
    exact TraceOk.block first rest (tail ++ b) ih

/-- The per-file operation block built inside `update_incremental` is a
well-formed trace. -/
theorem traceOk_fileOps (entries : List ConversationEntry) :
    TraceOk (fileOpsFor entries) := by
  cases entries with
  | nil => simpa [fileOpsFor] using TraceOk.nil
  | cons first rest =>
    have hshape : fileOpsFor (first :: rest) =
        WriterOp.delete first.session_id ::
          ((first :: rest).map WriterOp.add ++ WriterOp.commit :: []) := by
      simp [fileOpsFor, indexConversationsOps]
    rw [hshape]
    exact TraceOk.block first rest [] TraceOk.nil

/-- One step of the sweep loop preserves trace well-formedness. -/
theorem traceOk_processFile (cfg : Limits) (pts : String → Option Int)
    (em : String → ExtractedMeta) (now : Nat) (st : SweepState) (f : SweepFile)
    (h : TraceOk st.ops) : TraceOk (processFile cfg pts em now st f).ops := by
  unfold processFile
  cases hd : f.disk with
  | none => simpa using h
  | some d =>
    cases hni : needsIndexing st.metadata f.path d.size d.mtime with
    | false => simp [hni]; exact h
    | true =>
      cases hr : d.readResult with
      | none => simp [hni, hr]; exact h
      | some lines =>
        simp only [hni, hr, Bool.not_true, Bool.false_eq_true, if_false]
        exact traceOk_append h (traceOk_fileOps _)

/-- The whole sweep produces a well-formed trace from a well-formed start. -/
theorem traceOk_sweep (cfg : Limits) (pts : String → Option Int)
    (em : String → ExtractedMeta) (now : Nat) (files : List SweepFile)
    (st : SweepState) (h : TraceOk st.ops) :
    TraceOk ((files.foldl (processFile cfg pts em now) st).ops) := by
  induction files generalizing st with
  | nil => exact h
  | cons f fs ih => exact ih _ (traceOk_processFile cfg pts em now st f h)

/-- Claim C2 amended.  Within a single `update_incremental` call the writer
trace is a sequence of per-file blocks: for each changed file with at least
one parsed record, a `delete_session` for the session of that file's first
record, then the appends of that file's records, then a commit.  So the
per-file delete-before-append ordering holds, but each file's writes are
published by their own commit rather than by one commit covering the whole
batch. -/
theorem C2_amended (cfg : Limits) (pts : String → Option Int)
    (em : String → ExtractedMeta) (now : Nat) (md0 : CacheMetadata)
    (files : List SweepFile) :
    TraceOk (updateIncremental cfg pts em now md0 files).2 := by
  unfold updateIncremental
  exact traceOk_sweep cfg pts em now files _ TraceOk.nil

/-- Claim C6 code bug.  The spec's boundary behaviour (a query with
`limit = 0` returns an empty list) is the intent, but the code builds
`TopDocs::with_limit(query.limit)` unconditionally, and tantivy's
`TopCollector::with_limit` asserts `limit >= 1` ("Limit must be strictly
greater than 0."), so `search` with `limit = 0` panics instead of
completing normally: at the failing input the modelled outcome is the panic
(`none`), while the same query with limit 1 completes and returns its
hits. -/
theorem C6_limit_zero_panics :
    searchOutcome c5Index c5Match { text := "target", limit := 0 } = none ∧
    searchOutcome c5Index c5Match { text := "target", limit := 1 } =
      some [c5Sys] := by
  decide

/-- Claim C7 counterexample.  The claim says a file whose every line is
malformed leaves no fingerprint, so that the file is retried.  In fact a
sweep over such a file issues no writer operations but does record a
fingerprint with `entry_count = 0`. -/
theorem C7_counterexample :
    (updateIncremental cfg0 pts0 em0 42 {} [c7File]).2 = [] ∧
    lookupFile (updateIncremental cfg0 pts0 em0 42 {} [c7File]).1.indexed_files
      "/p/bad.jsonl" =
      some { size_hex := hexString 5, size := 5, modified := 7,
             indexed_at := 42, entry_count := 0 } := by
  decide

/-- A file whose every line is rejected (invalid JSON, blank, or failing
record validation) parses to no records, from any starting counter. -/
theorem parseLinesAux_allBad (cfg : Limits) (pts : String → Option Int)
    (em : String → ExtractedMeta) (project : String) (fai : Option String)
    (lines : List LineValue)
    (hbad : ∀ l ∈ lines, l = .invalidJson ∨ l = .blank ∨
      ∃ raw, l = .msg raw ∧
        ∀ n, parseRawMessage cfg pts em raw project n fai = none) :
    ∀ n, parseLinesAux cfg pts em project fai lines n = [] := by
  induction lines with
  | nil => intro n; rfl
  | cons l ls ih =>
    intro n
    have hrest : ∀ x ∈ ls, x = .invalidJson ∨ x = .blank ∨
        ∃ raw, x = .msg raw ∧
          ∀ k, parseRawMessage cfg pts em raw project k fai = none :=
      fun x hx => hbad x (List.mem_cons_of_mem _ hx)
    rcases hbad l (List.mem_cons_self _ _) with h1 | h1 | ⟨raw, hraw, hnone⟩
    · subst h1; simpa [parseLinesAux] using ih hrest n
    · subst h1; simpa [parseLinesAux] using ih hrest n
    · subst hraw
      simp only [parseLinesAux, hnone n]
      exact ih hrest n

/-- Keys surviving `removeFile` differ from the removed key. -/
theorem removeFile_keys (m : List (String × FileMetadata)) (p : String) :
    ∀ kv ∈ removeFile m p, kv.1 ≠ p := by
  intro kv hkv
  have := (List.mem_filter.mp hkv).2
  simpa [bne_iff_ne] using this

/-- Looking up a key right after inserting it yields the inserted value. -/
theorem lookupFile_insertFile (m : List (String × FileMetadata)) (p : String)
    (fm : FileMetadata) : lookupFile (insertFile m p fm) p = some fm := by
  unfold insertFile lookupFile
  have haux : ∀ l : List (String × FileMetadata), (∀ kv ∈ l, kv.1 ≠ p) →
      ((l ++ [(p, fm)]).find? (fun kv => kv.1 == p)).map (fun kv => kv.2) =
        some fm := by
    intro l
    induction l with
    | nil => intro _; simp
    | cons kv rest ih =>
      intro hall
      have hk : (kv.1 == p) = false := by
        simpa [beq_iff_eq] using hall kv (List.mem_cons_self _ _)
      simp only [List.cons_append, List.find?_cons, hk, cond_false]
      exact ih fun x hx => hall x (List.mem_cons_of_mem _ hx)
  exact haux _ (removeFile_keys m p)

/-- Claim C7 amended.  A changed file whose every line is malformed produces
zero records and no index writes, but its fingerprint **is** rewritten with
`entry_count = 0`, so `needs_indexing` is false afterwards and the file is
not retried on the next sweep (only a file whose read fails with an I/O
error is left unfingerprinted). -/
theorem C7_amended (cfg : Limits) (pts : String → Option Int)
    (em : String → ExtractedMeta) (now : Nat) (md0 : CacheMetadata)
    (f : SweepFile) (d : DiskFile) (lines : List LineValue)
    (hdisk : f.disk = some d) (hread : d.readResult = some lines)
    (hneed : needsIndexing md0 f.path d.size d.mtime = true)
    (hbad : ∀ l ∈ lines, l = .invalidJson ∨ l = .blank ∨
      ∃ raw, l = .msg raw ∧ ∀ n, parseRawMessage cfg pts em raw
        f.logPath.parentName n (fileAgentId f.logPath.fileName) = none) :
    (updateIncremental cfg pts em now md0 [f]).2 = [] ∧
    lookupFile (updateIncremental cfg pts em now md0 [f]).1.indexed_files f.path =
      some { size_hex := hexString d.size, size := d.size, modified := d.mtime,
             indexed_at := now, entry_count := 0 } ∧
    needsIndexing (updateIncremental cfg pts em now md0 [f]).1 f.path d.size d.mtime
      = false := by
  have hparse : parseFile cfg pts em f.logPath lines = [] :=
    parseLinesAux_allBad cfg pts em _ _ lines hbad 0
  have hpf : processFile cfg pts em now
      { metadata := md0, ops := [], files_processed := 0,
        total_entries_added := 0 } f =
      { metadata :=
          { md0 with
            indexed_files := insertFile md0.indexed_files f.path
              { size_hex := hexString d.size, size := d.size,
                modified := d.mtime, indexed_at := now, entry_count := 0 } },
        ops := [], files_processed := 1, total_entries_added := 0 } := by
    simp [processFile, hdisk, hneed, hread, hparse, fileOpsFor]
  unfold updateIncremental
  simp only [List.foldl_cons, List.foldl_nil, hpf]
  refine ⟨trivial, ?_, ?_⟩
  · simpa using lookupFile_insertFile md0.indexed_files f.path _
  · simp [needsIndexing, lookupFile_insertFile]

/-- Claim C7 witness. -/
theorem C7_witness :
    (updateIncremental cfg0 pts0 em0 42 {} [c7File]).2 = [] ∧
    lookupFile (updateIncremental cfg0 pts0 em0 42 {} [c7File]).1.indexed_files
      c7File.path =
      some { size_hex := hexString c7Disk.size, size := c7Disk.size,
             modified := c7Disk.mtime, indexed_at := 42, entry_count := 0 } ∧
    needsIndexing (updateIncremental cfg0 pts0 em0 42 {} [c7File]).1 c7File.path
      c7Disk.size c7Disk.mtime = false :=
  C7_amended cfg0 pts0 em0 42 {} c7File c7Disk [.invalidJson, .invalidJson]
    rfl rfl (by decide)
    (by intro l hl; simp at hl; subst hl; exact Or.inl rfl)

/-- Claim C4 counterexample.  The claim says any prefix of length ≥ 8 of an
indexed session id retrieves the same records as the full id, including
prefixes ending mid-segment.  The prefix `"aabbccdd-1"` (length 10) of the
indexed session `"aabbccdd-1122-…"` retrieves nothing, because its second
hyphen segment `"1"` is not a token of the stored id, while the full id
retrieves the session's record. -/
theorem C4_counterexample :
    strStartsWith c4Session "aabbccdd-1" = true ∧
    8 ≤ ("aabbccdd-1" : String).length ∧
    getSessionMessages c4Index c4Session = [c4Doc] ∧
    getSessionMessages c4Index "aabbccdd-1" = [] := by
  decide

/-- Claim C4 amended.  Retrieval by a prefix agrees with retrieval by the
full session id when the prefix ends on a hyphen boundary (its
hyphen-segments are a prefix of the full id's segment list).  Hypotheses:
every hyphen segment of `s` is an analyzer token of `s` (true of any
UUID-shaped id), no other indexed session id shares the prefix (the
8-character-uniqueness assumption the code relies on), and the index holds
at most `MAX_SESSION_MESSAGES` documents (the retrieval cap). -/
theorem C4_amended (idx : List ConversationEntry) (s p : String)
    (hlen : 8 ≤ p.length)
    (hpre : strStartsWith s p = true)
    (hseg : (splitChar (fun c => c == '-') p).isPrefixOf
      (splitChar (fun c => c == '-') s) = true)
    (htok : ∀ seg ∈ splitChar (fun c => c == '-') s, seg ∈ tantivyTokens s)
    (huniq_p : ∀ d ∈ idx, sessionPostFilter p d = true → d.session_id = s)
    (huniq_s : ∀ d ∈ idx, sessionPostFilter s d = true → d.session_id = s)
    (hsize : idx.length ≤ MAX_SESSION_MESSAGES) :
    getSessionMessages idx p = getSessionMessages idx s := by
  simp only [getSessionMessages]
  have htake : ∀ q : String,
      (idx.filter (sessionSegmentsMatch q)).take MAX_SESSION_MESSAGES =
        idx.filter (sessionSegmentsMatch q) :=
    fun q => List.take_of_length_le (le_trans (List.length_filter_le _ _) hsize)
  rw [htake p, htake s, List.filter_filter, List.filter_filter]
  congr 1
  apply List.filter_congr
  intro d hd
  by_cases hds : d.session_id = s
  · have hsegsub : ∀ seg ∈ splitChar (fun c => c == '-') p,
        seg ∈ tantivyTokens s := fun seg hm =>
      htok seg (( List.isPrefixOf_iff_prefix.mp hseg).subset hm)
    have h1 : sessionSegmentsMatch p d = true := by
      unfold sessionSegmentsMatch
      rw [List.all_eq_true]
      intro seg hm
      rw [hds]
      exact List.elem_iff.mpr (hsegsub seg hm)
    have h2 : sessionSegmentsMatch s d = true := by
      unfold sessionSegmentsMatch
      rw [List.all_eq_true]
      intro seg hm
      rw [hds]
      exact List.elem_iff.mpr (htok seg hm)
    have h3 : sessionPostFilter p d = true := by
      unfold sessionPostFilter
      rw [hds]
      simp [hpre]
    have h4 : sessionPostFilter s d = true := by
      unfold sessionPostFilter
      rw [hds]
      simp
    simp [h1, h2, h3, h4]
  · have hl : sessionPostFilter p d = false := by
      cases hv : sessionPostFilter p d
      · rfl
      · exact absurd (huniq_p d hd hv) hds
    have hr : sessionPostFilter s d = false := by
      cases hv : sessionPostFilter s d
      · rfl
      · exact absurd (huniq_s d hd hv) hds
    simp [hl, hr]

/-- Claim C4 witness: the boundary-aligned prefix `"aabbccdd-1122"` (length
13 ≥ 8) retrieves the same list as the full fixture session id. -/
theorem C4_witness :
    getSessionMessages c4Index "aabbccdd-1122" =
      getSessionMessages c4Index c4Session :=
  C4_amended c4Index c4Session "aabbccdd-1122" (by decide) (by decide)
    (by decide) (by decide) (by decide) (by decide) (by decide)

/-- One writer operation grows the index by at most one (only appends grow
it; a delete can only shrink it). -/
theorem applyOp_length_le (idx : List ConversationEntry) (op : WriterOp) :
    (applyOp idx op).length ≤ idx.length + (if isAddOp op then 1 else 0) := by
  cases op with
  | delete sid =>
    simpa [applyOp, isAddOp, deleteSession] using List.length_filter_le _ idx
  | add e => simp [applyOp, isAddOp]
  | commit => simp [applyOp, isAddOp]

/-- A trace grows the index by at most its number of appends. -/
theorem applyOps_length_le (ops : List WriterOp) :
    ∀ idx : List ConversationEntry,
      (applyOps idx ops).length ≤ idx.length + ops.countP isAddOp := by
  induction ops with
  | nil => intro idx; simp [applyOps]
  | cons op rest ih =>
    intro idx
    have h1 := applyOp_length_le idx op
    have h2 := ih (applyOp idx op)
    simp only [applyOps, List.foldl_cons] at h2 ⊢
    rw [List.countP_cons]
    cases hop : isAddOp op <;> simp [hop] at h1 ⊢ <;> omega

/-- The per-file block contains exactly one append per parsed record. -/
theorem countAdds_fileOpsFor (entries : List ConversationEntry) :
    (fileOpsFor entries).countP isAddOp = entries.length := by
  cases entries with
  | nil => simp [fileOpsFor]
  | cons first rest =>
    simp only [fileOpsFor, List.length_cons, Nat.zero_lt_succ, if_pos,
      List.head?_cons, indexConversationsOps, List.countP_append]
    have hmap : ∀ l : List ConversationEntry,
        (l.map WriterOp.add).countP isAddOp = l.length := by
      intro l
      induction l with
      | nil => simp
      | cons x xs ihx => simp [List.countP_cons, isAddOp, ihx]
    simp [List.countP_cons, isAddOp, hmap]

/-- One sweep step: `metadata.total_entries` is untouched, and the step
either leaves the trace and counter alone or appends one file block while
adding that file's record count to the counter. -/
theorem processFile_step (cfg : Limits) (pts : String → Option Int)
    (em : String → ExtractedMeta) (now : Nat) (st : SweepState) (f : SweepFile) :
    (processFile cfg pts em now st f).metadata.total_entries =
      st.metadata.total_entries ∧
    ((processFile cfg pts em now st f).ops = st.ops ∧
      (processFile cfg pts em now st f).total_entries_added =
        st.total_entries_added ∨
     ∃ es : List ConversationEntry,
       (processFile cfg pts em now st f).ops = st.ops ++ fileOpsFor es ∧
       (processFile cfg pts em now st f).total_entries_added =
         st.total_entries_added + es.length) := by
  unfold processFile
  cases hd : f.disk with
  | none => simp
  | some d =>
    cases hni : needsIndexing st.metadata f.path d.size d.mtime with
    | false => simp [hni]
    | true =>
      cases hr : d.readResult with
      | none => simp [hni, hr]
      | some lines =>
        simp only [hni, hr, Bool.not_true, Bool.false_eq_true, if_false]
        exact ⟨trivial, Or.inr ⟨parseFile cfg pts em f.logPath lines, rfl, rfl⟩⟩

/-- Across a sweep, `metadata.total_entries` is constant and the appends in
the trace grow in step with the `total_entries` counter. -/
theorem sweep_inv (cfg : Limits) (pts : String → Option Int)
    (em : String → ExtractedMeta) (now : Nat) (files : List SweepFile) :
    ∀ st : SweepState,
      st.ops.countP isAddOp = st.total_entries_added →
      (files.foldl (processFile cfg pts em now) st).metadata.total_entries =
        st.metadata.total_entries ∧
      (files.foldl (processFile cfg pts em now) st).ops.countP isAddOp =
        (files.foldl (processFile cfg pts em now) st).total_entries_added := by
  induction files with
  | nil => intro st h; exact ⟨rfl, h⟩
  | cons f fs ih =>
    intro st h
    obtain ⟨htot, hstep⟩ := processFile_step cfg pts em now st f
    have hinv : (processFile cfg pts em now st f).ops.countP isAddOp =
        (processFile cfg pts em now st f).total_entries_added := by
      rcases hstep with ⟨ho, ht⟩ | ⟨es, ho, ht⟩
      · rw [ho, ht]; exact h
      · rw [ho, ht, List.countP_append, countAdds_fileOpsFor, h]
    obtain ⟨h1, h2⟩ := ih (processFile cfg pts em now st f) hinv
    exact ⟨by simp only [List.foldl_cons]; rw [h1, htot],
           by simpa only [List.foldl_cons] using h2⟩

/-- Claim C10 counterexample.  The claim says `total_entries` strictly
exceeds the records contributed to the index after any re-index of a changed
file.  Index a file that parsed to zero records, then modify it so it parses
to one record: the second sweep is a re-index of a changed, fingerprinted
file, yet afterwards `total_entries = 1` exactly equals the index's record
count of 1 — no strict excess. -/
theorem C10_counterexample :
    (lookupFile c10Md1.indexed_files c10File2.path).isSome = true ∧
    needsIndexing c10Md1 c10File2.path 9 2 = true ∧
    c10Run2.1.total_entries = 1 ∧
    c10Idx2.length = 1 ∧
    ¬(c10Idx2.length < c10Run2.1.total_entries) := by
  decide

/-- Claim C10 amended.  `total_entries` is monotonically non-decreasing
across `update_incremental` calls: every sweep adds the number of records it
parsed and never subtracts (re-indexed files and evicted fingerprints
included).  Consequently it remains an upper bound — not always strict —
on the number of records the sweeps have contributed to the index: if the
index held at most `total_entries` records before a sweep, it still does
afterwards. -/
theorem C10_amended (cfg : Limits) (pts : String → Option Int)
    (em : String → ExtractedMeta) (now : Nat) (md0 : CacheMetadata)
    (files : List SweepFile) (idx0 : List ConversationEntry)
    (h : idx0.length ≤ md0.total_entries) :
    md0.total_entries ≤ (updateIncremental cfg pts em now md0 files).1.total_entries ∧
    (applyOps idx0 (updateIncremental cfg pts em now md0 files).2).length ≤
      (updateIncremental cfg pts em now md0 files).1.total_entries := by
  obtain ⟨htot, hcnt⟩ := sweep_inv cfg pts em now files
    { metadata := md0, ops := [], files_processed := 0, total_entries_added := 0 }
    (by simp)
  have htot2 : (files.foldl (processFile cfg pts em now)
      { metadata := md0, ops := [], files_processed := 0,
        total_entries_added := 0 }).metadata.total_entries = md0.total_entries :=
    htot
  have hups1 : (updateIncremental cfg pts em now md0 files).1.total_entries =
      md0.total_entries + (files.foldl (processFile cfg pts em now)
        { metadata := md0, ops := [], files_processed := 0,
          total_entries_added := 0 }).total_entries_added := by
    simp [updateIncremental, htot2]
  have hups2 : (updateIncremental cfg pts em now md0 files).2 =
      (files.foldl (processFile cfg pts em now)
        { metadata := md0, ops := [], files_processed := 0,
          total_entries_added := 0 }).ops := by
    simp [updateIncremental]
  rw [hups1, hups2]
  have hlen := applyOps_length_le
    (files.foldl (processFile cfg pts em now)
      { metadata := md0, ops := [], files_processed := 0,
        total_entries_added := 0 }).ops idx0
  exact ⟨Nat.le_add_right _ _, by omega⟩

/-- Claim C10 witness. -/
theorem C10_witness :
    c10Md1.total_entries ≤ c10Run2.1.total_entries ∧
    (applyOps [] c10Run2.2).length ≤ c10Run2.1.total_entries :=
  C10_amended cfg0 pts0 em0 200 c10Md1 [c10File2] [] (by decide)

/-- Membership in a stable insertion. -/
theorem mem_insertBy {α : Type} (lt : α → α → Bool) (e : α) (l : List α) (a : α) :
    a ∈ insertBy lt e l ↔ a = e ∨ a ∈ l := by
  induction l with
  | nil => simp [insertBy]
  | cons x xs ih =>
    cases h : lt x e with
    | true => simp [insertBy, h, ih] <;> tauto
    | false => simp [insertBy, h] <;> tauto

/-- The stable sort permutes nothing in or out. -/
theorem mem_sortBy {α : Type} (lt : α → α → Bool) (l : List α) (a : α) :
    a ∈ sortBy lt l ↔ a ∈ l := by
  induction l with
  | nil => simp [sortBy]
  | cons x xs ih =>
    simp only [sortBy, List.foldr_cons]
    rw [mem_insertBy]
    simp only [sortBy] at ih
    rw [ih]
    simp

/-- Inserting into a sorted list keeps it sorted, for any relation the
comparator decides totally and transitively. -/
theorem pairwise_insertBy {α : Type} (lt : α → α → Bool) (R : α → α → Prop)
    (hT : ∀ x y, lt x y = true → R x y)
    (hF : ∀ x y, lt x y = false → R y x)
    (hTrans : ∀ a b c, R a b → R b c → R a c)
    (e : α) (l : List α) (hl : l.Pairwise R) :
    (insertBy lt e l).Pairwise R := by
  induction l with
  | nil => simp [insertBy]
  | cons x xs ih =>
    obtain ⟨hx, hxs⟩ := List.pairwise_cons.mp hl
    cases h : lt x e with
    | true =>
      have hrec := ih hxs
      simp only [insertBy, h, if_pos]
      rw [List.pairwise_cons]
      refine ⟨?_, hrec⟩
      intro b hb
      rcases (mem_insertBy lt e xs b).mp hb with rfl | hbx
      · exact hT x b h
      · exact hx b hbx
    | false =>
      simp only [insertBy, h, Bool.false_eq_true, if_false]
      rw [List.pairwise_cons]
      refine ⟨?_, hl⟩
      intro b hb
      rcases List.mem_cons.mp hb with rfl | hbxs
      · exact hF b e h
      · exact hTrans e x b (hF x e h) (hx b hbxs)

/-- The stable sort sorts, under the same comparator conditions. -/
theorem pairwise_sortBy {α : Type} (lt : α → α → Bool) (R : α → α → Prop)
    (hT : ∀ x y, lt x y = true → R x y)
    (hF : ∀ x y, lt x y = false → R y x)
    (hTrans : ∀ a b c, R a b → R b c → R a c)
    (l : List α) : (sortBy lt l).Pairwise R := by
  induction l with
  | nil => simp [sortBy]
  | cons x xs ih =>
    simp only [sortBy, List.foldr_cons]
    exact pairwise_insertBy lt R hT hF hTrans x _ (by simpa only [sortBy] using ih)

/-- Membership through `sortBySeq`. -/
theorem mem_sortBySeq (l : List ConversationEntry) (a : ConversationEntry) :
    a ∈ sortBySeq l ↔ a ∈ l := by
  unfold sortBySeq
  exact mem_sortBy _ l a

/-- The sort `sortBySeq` orders by `sequence_num`. -/
theorem sortBySeq_pairwise (l : List ConversationEntry) :
    (sortBySeq l).Pairwise (fun a b => a.sequence_num ≤ b.sequence_num) := by
  unfold sortBySeq
  refine pairwise_sortBy _ _ ?_ ?_ ?_ l
  · intro x y h
    exact Nat.le_of_lt (of_decide_eq_true h)
  · intro x y h
    exact Nat.le_of_not_lt (of_decide_eq_false h)
  · intro a b c h1 h2
    exact Nat.le_trans h1 h2

/-- Every record retrieved for a session passes the exact-or-prefix
post-filter. -/
theorem mem_getSessionMessages_post (idx : List ConversationEntry) (sid : String)
    (c : ConversationEntry) (h : c ∈ getSessionMessages idx sid) :
    sessionPostFilter sid c = true := by
  simp only [getSessionMessages] at h
  rw [mem_sortBySeq] at h
  exact (List.mem_filter.mp h).2

/-- The displayable-filter loop returns the filtered window appended to the
accumulator, whatever the match bookkeeping does. -/
theorem windowAcc_out (start idxm : Nat) (slice : List ConversationEntry) :
    ∀ (i : Nat) (acc : List ConversationEntry) (nmi : Nat),
      (windowAcc start idxm slice i acc nmi).1 =
        acc ++ slice.filter isDisplayable := by
  induction slice with
  | nil => intro i acc nmi; simp [windowAcc]
  | cons msg rest ih =>
    intro i acc nmi
    cases hd : isDisplayable msg with
    | true =>
      simp only [windowAcc, hd, if_pos]
      rw [ih]
      simp [List.filter_cons, hd]
    | false =>
      simp only [windowAcc, hd, Bool.false_eq_true, if_false]
      rw [ih]
      simp [List.filter_cons, hd]

/-- If the matched position lies outside the window being walked, the match
index is left at its incoming value. -/
theorem windowAcc_nomatch (start idxm : Nat) (slice : List ConversationEntry) :
    ∀ (i : Nat) (acc : List ConversationEntry) (nmi : Nat),
      (∀ j, j < slice.length → start + i + j ≠ idxm) →
      (windowAcc start idxm slice i acc nmi).2 = nmi := by
  induction slice with
  | nil => intro i acc nmi _; rfl
  | cons msg rest ih =>
    intro i acc nmi h
    have h0 : (start + i == idxm) = false := by
      have h00 := h 0 (Nat.succ_pos _)
      rw [Nat.add_zero] at h00
      exact beq_eq_false_iff_ne.mpr h00
    have hrest : ∀ j, j < rest.length → start + (i + 1) + j ≠ idxm := by
      intro j hj
      have := h (j + 1) (by simpa using Nat.succ_lt_succ hj)
      omega
    cases hd : isDisplayable msg with
    | true =>
      simp only [windowAcc, hd, if_pos, h0, Bool.false_eq_true, if_false]
      exact ih (i + 1) (acc ++ [msg]) nmi hrest
    | false =>
      simp only [windowAcc, hd, Bool.false_eq_true, if_false]
      exact ih (i + 1) acc nmi hrest

/-- If the walked window contains the matched position and the message there
is displayable, the loop's returned index points at exactly that message. -/
theorem windowAcc_match (start idxm : Nat) (slice : List ConversationEntry) :
    ∀ (i : Nat) (acc : List ConversationEntry) (nmi : Nat) (j : Nat)
      (mj : ConversationEntry),
      slice[j]? = some mj → start + i + j = idxm → isDisplayable mj = true →
      (windowAcc start idxm slice i acc nmi).1[
        (windowAcc start idxm slice i acc nmi).2]? = some mj := by
  induction slice with
  | nil => intro i acc nmi j mj hget; simp at hget
  | cons msg rest ih =>
    intro i acc nmi j mj hget hidx hdisp
    cases j with
    | zero =>
      simp only [List.getElem?_cons_zero] at hget
      injection hget with hmj
      subst hmj
      have hbeq : (start + i == idxm) = true := beq_iff_eq.mpr (by omega)
      simp only [windowAcc, hdisp, if_pos, hbeq, if_true]
      have hnm := windowAcc_nomatch start idxm rest (i + 1) (acc ++ [msg])
        acc.length (fun j' hj' => by omega)
      have hout := windowAcc_out start idxm rest (i + 1) (acc ++ [msg]) acc.length
      rw [hnm, hout, List.append_assoc,
        List.getElem?_append_right (Nat.le_refl acc.length)]
      simp
    | succ k =>
      simp only [List.getElem?_cons_succ] at hget
      have hidx' : start + (i + 1) + k = idxm := by omega
      cases hd : isDisplayable msg with
      | true =>
        simp only [windowAcc, hd, if_pos]
        exact ih (i + 1) (acc ++ [msg]) _ k mj hget hidx' hdisp
      | false =>
        simp only [windowAcc, hd, Bool.false_eq_true, if_false]
        exact ih (i + 1) acc nmi k mj hget hidx' hdisp

/-- The context window is the displayable-filtered slice of the session. -/
theorem contextCore_out (sm : List ConversationEntry) (idxm B A : Nat) :
    (contextCore sm idxm B A).1 =
      ((sm.drop (idxm - B)).take
        (min (idxm + A + 1) sm.length - (idxm - B))).filter isDisplayable := by
  simp only [contextCore]
  rw [windowAcc_out]
  simp

/-- The context window holds at most `B + 1 + A` messages. -/
theorem contextCore_len (sm : List ConversationEntry) (idxm B A : Nat) :
    (contextCore sm idxm B A).1.length ≤ B + 1 + A := by
  rw [contextCore_out]
  have h1 := List.length_filter_le isDisplayable
    ((sm.drop (idxm - B)).take (min (idxm + A + 1) sm.length - (idxm - B)))
  have h2 := List.length_take (min (idxm + A + 1) sm.length - (idxm - B))
    (sm.drop (idxm - B))
  have h3 := List.length_drop (idxm - B) sm
  omega

/-- The context window is a sublist of the sorted session. -/
theorem contextCore_sublist (sm : List ConversationEntry) (idxm B A : Nat) :
    List.Sublist (contextCore sm idxm B A).1 sm := by
  rw [contextCore_out]
  exact (List.filter_sublist _).trans
    ((List.take_sublist _ _).trans (List.drop_sublist _ _))

/-- Every message in the context window is displayable. -/
theorem contextCore_disp (sm : List ConversationEntry) (idxm B A : Nat) :
    ∀ c ∈ (contextCore sm idxm B A).1, isDisplayable c = true := by
  rw [contextCore_out]
  intro c hc
  exact (List.mem_filter.mp hc).2

/-- When the matched message sits at position `idxm` of the sorted session
and is displayable, the recomputed match index points at it. -/
theorem contextCore_match (sm : List ConversationEntry) (idxm B A : Nat)
    (m : ConversationEntry) (hget : sm[idxm]? = some m)
    (hd : isDisplayable m = true) :
    (contextCore sm idxm B A).1[(contextCore sm idxm B A).2]? = some m := by
  have hlt : idxm < sm.length := (List.getElem?_eq_some_iff.mp hget).1
  have hcond : idxm - (idxm - B) < min (idxm + A + 1) sm.length - (idxm - B) := by
    omega
  have hslice : ((sm.drop (idxm - B)).take
      (min (idxm + A + 1) sm.length - (idxm - B)))[idxm - (idxm - B)]? = some m := by
    rw [List.getElem?_take, if_pos hcond, List.getElem?_drop]
    have he : (idxm - B) + (idxm - (idxm - B)) = idxm := by omega
    rw [he, hget]
  have hsum : (idxm - B) + 0 + (idxm - (idxm - B)) = idxm := by omega
  simp only [contextCore]
  exact windowAcc_match (idxm - B) idxm _ 0 [] 0 (idxm - (idxm - B)) m
    hslice hsum hd

/-- Full behaviour of the per-match context assembly. -/
theorem contextForMatch_spec (idx : List ConversationEntry) (B A : Nat)
    (m : ConversationEntry) :
    (contextForMatch idx B A m).matched_message = m ∧
    (contextForMatch idx B A m).context_messages ≠ [] ∧
    (contextForMatch idx B A m).context_messages.length ≤ B + 1 + A ∧
    (contextForMatch idx B A m).context_messages.Pairwise
      (fun a b => a.sequence_num ≤ b.sequence_num) ∧
    ((contextForMatch idx B A m).context_messages = [m] ∨
      ∀ c ∈ (contextForMatch idx B A m).context_messages,
        isDisplayable c = true ∧ sessionPostFilter m.session_id c = true) ∧
    (∀ j, (sortBySeq (getSessionMessages idx m.session_id)).findIdx?
        (fun x => x.uuid == m.uuid) = some j →
      (sortBySeq (getSessionMessages idx m.session_id))[j]? = some m →
      isDisplayable m = true →
      (contextForMatch idx B A m).context_messages[
        (contextForMatch idx B A m).match_index]? = some m) := by
  by_cases h0 : (getSessionMessages idx m.session_id).isEmpty = true
  · have hEq : contextForMatch idx B A m =
        { matched_message := m, context_messages := [m], match_index := 0,
          total_session_messages := 1 } := by
      simp [contextForMatch, h0]
    rw [hEq]
    refine ⟨rfl, by simp, by simp; omega, by simp, Or.inl rfl, ?_⟩
    intro j hfind hget hdisp
    exfalso
    have hnil : getSessionMessages idx m.session_id = [] := List.isEmpty_iff.mp h0
    rw [hnil] at hfind
    simp [sortBySeq, sortBy] at hfind
  · cases hmidx : ((sortBySeq (getSessionMessages idx m.session_id)).findIdx?
        (fun x => x.uuid == m.uuid)).orElse
        (fun _ => (sortBySeq (getSessionMessages idx m.session_id)).findIdx?
          (fun x => x.sequence_num == m.sequence_num)) with
    | none =>
      have hEq : contextForMatch idx B A m =
          { matched_message := m, context_messages := [m], match_index := 0,
            total_session_messages :=
              ((sortBySeq (getSessionMessages idx m.session_id)).filter
                isDisplayable).length } := by
        simp [contextForMatch, h0, hmidx]
      rw [hEq]
      refine ⟨rfl, by simp, by simp; omega, by simp, Or.inl rfl, ?_⟩
      intro j hfind hget hdisp
      rw [hfind] at hmidx
      simp [Option.orElse] at hmidx
    | some idxm =>
      by_cases hcw : (contextCore (sortBySeq (getSessionMessages idx m.session_id))
          idxm B A).1.isEmpty = true
      · have hEq : contextForMatch idx B A m =
            { matched_message := m, context_messages := [m], match_index := 0,
              total_session_messages :=
                ((sortBySeq (getSessionMessages idx m.session_id)).filter
                  isDisplayable).length } := by
          simp [contextForMatch, h0, hmidx, hcw]
        rw [hEq]
        refine ⟨rfl, by simp, by simp; omega, by simp, Or.inl rfl, ?_⟩
        intro j hfind hget hdisp
        exfalso
        rw [hfind] at hmidx
        simp only [Option.orElse] at hmidx
        injection hmidx with hji
        subst hji
        have hmm := contextCore_match
          (sortBySeq (getSessionMessages idx m.session_id)) j B A m hget hdisp
        have hne : (contextCore (sortBySeq (getSessionMessages idx m.session_id))
            j B A).1 ≠ [] := by
          intro hn
          rw [hn] at hmm
          simp at hmm
        exact hne (List.isEmpty_iff.mp hcw)
      · have hEq : contextForMatch idx B A m =
            { matched_message := m,
              context_messages :=
                (contextCore (sortBySeq (getSessionMessages idx m.session_id))
                  idxm B A).1,
              match_index :=
                (contextCore (sortBySeq (getSessionMessages idx m.session_id))
                  idxm B A).2,
              total_session_messages :=
                ((sortBySeq (getSessionMessages idx m.session_id)).filter
                  isDisplayable).length } := by
          simp [contextForMatch, h0, hmidx, hcw]
        rw [hEq]
        dsimp only
        refine ⟨rfl, ?_, contextCore_len _ _ _ _, ?_, ?_, ?_⟩
        · intro hn
          exact hcw (by simp [hn])
        · exact List.Pairwise.sublist (contextCore_sublist _ _ _ _)
            (sortBySeq_pairwise _)
        · refine Or.inr ?_
          intro c hc
          refine ⟨contextCore_disp _ _ _ _ c hc, ?_⟩
          have hcm : c ∈ sortBySeq (getSessionMessages idx m.session_id) :=
            (contextCore_sublist _ _ _ _).subset hc
          rw [mem_sortBySeq] at hcm
          exact mem_getSessionMessages_post idx m.session_id c hcm
        · intro j hfind hget hdisp
          rw [hfind] at hmidx
          simp only [Option.orElse] at hmidx
          injection hmidx with hji
          subst hji
          exact contextCore_match _ _ _ _ _ hget hdisp

/-- Rows of `search_with_context` are exactly the contexts of the search's
matches, whatever the requested sort order. -/
theorem searchWithContext_mem (idx : List ConversationEntry)
    (tm : ConversationEntry → Bool) (q : SearchQuery) (B A : Nat)
    (r : SearchResultWithContext) (hr : r ∈ searchWithContext idx tm q B A) :
    ∃ m, m ∈ searchRun idx tm q ∧ r = contextForMatch idx B A m := by
  unfold searchWithContext at hr
  cases hsort : q.sort_by with
  | Relevance =>
    rw [hsort] at hr
    obtain ⟨m, hm, heq⟩ := List.mem_map.mp hr
    exact ⟨m, hm, heq.symm⟩
  | DateDesc =>
    rw [hsort] at hr
    rw [mem_sortBy] at hr
    obtain ⟨m, hm, heq⟩ := List.mem_map.mp hr
    exact ⟨m, hm, heq.symm⟩
  | DateAsc =>
    rw [hsort] at hr
    rw [mem_sortBy] at hr
    obtain ⟨m, hm, heq⟩ := List.mem_map.mp hr
    exact ⟨m, hm, heq.symm⟩

/-- Claim C5 counterexample.  The claim says the context window's element at
`match_index` is the matched message itself and all window messages are
displayable.  A search matching a non-displayable System record with a
displayable neighbour produces a window `[c5User]` with `match_index = 0`
whose only element is not the matched message `c5Sys`. -/
theorem C5_counterexample :
    searchWithContext c5Index c5Match { text := "target", limit := 1 } 1 1 =
      [{ matched_message := c5Sys, context_messages := [c5User],
         match_index := 0, total_session_messages := 1 }] ∧
    c5User ≠ c5Sys := by
  decide

/-- Claim C5 amended.  Every row of `search_with_context(B, A)` is the
context of some search match `m`: its window is non-empty, holds at most
`B + 1 + A` messages, is ordered by `sequence_num`, and either is the
synthesized `[m]` or consists solely of displayable messages whose stored
`session_id` passes the session post-filter for `m`'s session; moreover,
whenever the matched message is itself displayable and is the record found
by the uuid scan of its retrieved session, the element at `match_index` is
the matched message (a non-displayable match can leave `match_index`
pointing at a different message, as the counterexample shows). -/
theorem C5_amended (idx : List ConversationEntry) (tm : ConversationEntry → Bool)
    (q : SearchQuery) (B A : Nat) :
    ∀ r ∈ searchWithContext idx tm q B A,
      ∃ m ∈ searchRun idx tm q,
        r.matched_message = m ∧
        r.context_messages ≠ [] ∧
        r.context_messages.length ≤ B + 1 + A ∧
        r.context_messages.Pairwise (fun a b => a.sequence_num ≤ b.sequence_num) ∧
        (r.context_messages = [m] ∨ ∀ c ∈ r.context_messages,
          isDisplayable c = true ∧ sessionPostFilter m.session_id c = true) ∧
        (∀ j, (sortBySeq (getSessionMessages idx m.session_id)).findIdx?
            (fun x => x.uuid == m.uuid) = some j →
          (sortBySeq (getSessionMessages idx m.session_id))[j]? = some m →
          isDisplayable m = true →
          r.context_messages[r.match_index]? = some m) := by
  intro r hr
  obtain ⟨m, hm, rfl⟩ := searchWithContext_mem idx tm q B A r hr
  obtain ⟨p1, p2, p3, p4, p5, p6⟩ := contextForMatch_spec idx B A m
  exact ⟨m, hm, p1, p2, p3, p4, p5, p6⟩

/-- Claim C5 witness. -/
theorem C5_witness :
    ∃ m ∈ searchRun c5Index c5Match { text := "target", limit := 1 },
      c5Row.matched_message = m ∧
      c5Row.context_messages ≠ [] ∧
      c5Row.context_messages.length ≤ 1 + 1 + 1 ∧
      c5Row.context_messages.Pairwise (fun a b => a.sequence_num ≤ b.sequence_num) ∧
      (c5Row.context_messages = [m] ∨ ∀ c ∈ c5Row.context_messages,
        isDisplayable c = true ∧ sessionPostFilter m.session_id c = true) ∧
      (∀ j, (sortBySeq (getSessionMessages c5Index m.session_id)).findIdx?
          (fun x => x.uuid == m.uuid) = some j →
        (sortBySeq (getSessionMessages c5Index m.session_id))[j]? = some m →
        isDisplayable m = true →
        c5Row.context_messages[c5Row.match_index]? = some m) :=
  C5_amended c5Index c5Match { text := "target", limit := 1 } 1 1 c5Row (by decide)

/-- Element of a mapped range by position. -/
theorem getD_map_range (f : Nat → Nat) (n j : Nat) (h : j < n) :
    ((List.range n).map f).getD j 0 = f j := by
  rw [List.getD_eq_getElem _ _ (by simpa using h)]
  simp

/-- Specification of the best-window fold of `generate_snippet`: with the
already-scanned scores `done` (of length `i`) and a current best consistent
with them, the fold returns a pair bounding every score, strictly exceeding
every score left of the returned index (leftmost maximum), and either
attained at the returned index or still the initial `(0, 0)`. -/
theorem bestWindowAux_spec (scores : List Nat) :
    ∀ (i bs bsc : Nat) (done : List Nat),
      done.length = i →
      (∀ j, j < done.length → done.getD j 0 ≤ bsc) →
      (∀ j, j < bs → done.getD j 0 < bsc) →
      (bs < i ∧ done.getD bs 0 = bsc ∨ bs = 0 ∧ bsc = 0) →
      (∀ j, j < done.length + scores.length →
        (done ++ scores).getD j 0 ≤ (bestWindowAux scores i bs bsc).2) ∧
      (∀ j, j < (bestWindowAux scores i bs bsc).1 →
        (done ++ scores).getD j 0 < (bestWindowAux scores i bs bsc).2) ∧
      ((bestWindowAux scores i bs bsc).1 < done.length + scores.length ∧
        (done ++ scores).getD (bestWindowAux scores i bs bsc).1 0 =
          (bestWindowAux scores i bs bsc).2 ∨
       (bestWindowAux scores i bs bsc).1 = 0 ∧
        (bestWindowAux scores i bs bsc).2 = 0) := by
  induction scores with
  | nil =>
    intro i bs bsc done hlen hmax hleft hcur
    simp only [bestWindowAux, List.append_nil, List.length_nil, Nat.add_zero]
    refine ⟨hmax, hleft, ?_⟩
    rcases hcur with ⟨h1, h2⟩ | ⟨h1, h2⟩
    · exact Or.inl ⟨by omega, h2⟩
    · exact Or.inr ⟨h1, h2⟩
  | cons s rest ih =>
    intro i bs bsc done hlen hmax hleft hcur
    have hsplit : done ++ s :: rest = (done ++ [s]) ++ rest := by simp
    have hlen2 : done.length + (s :: rest).length =
        (done ++ [s]).length + rest.length := by
      simp only [List.length_append, List.length_cons, List.length_nil]
      omega
    have hgetmid : (done ++ [s]).getD done.length 0 = s := by
      rw [List.getD_append_right _ _ _ _ (Nat.le_refl _)]
      simp
    by_cases hlt : bsc < s
    · have hbw : bestWindowAux (s :: rest) i bs bsc =
          bestWindowAux rest (i + 1) i s := by
        simp [bestWindowAux, hlt]
      have hmaxA : ∀ j, j < (done ++ [s]).length → (done ++ [s]).getD j 0 ≤ s := by
        intro j hj
        simp only [List.length_append, List.length_cons, List.length_nil] at hj
        by_cases hjd : j < done.length
        · rw [List.getD_append _ _ _ _ hjd]
          exact le_of_lt (lt_of_le_of_lt (hmax j hjd) hlt)
        · have hje : j = done.length := by omega
          rw [hje, hgetmid]
      have hleftA : ∀ j, j < i → (done ++ [s]).getD j 0 < s := by
        intro j hj
        have hjd : j < done.length := by omega
        rw [List.getD_append _ _ _ _ hjd]
        exact lt_of_le_of_lt (hmax j hjd) hlt
      have hcurA : i < i + 1 ∧ (done ++ [s]).getD i 0 = s ∨ i = 0 ∧ s = 0 :=
        Or.inl ⟨Nat.lt_succ_self _, by rw [← hlen]; exact hgetmid⟩
      obtain ⟨g1, g2, g3⟩ := ih (i + 1) i s (done ++ [s])
        (by simp [hlen]) hmaxA hleftA hcurA
      rw [hbw, hsplit, hlen2]
      exact ⟨g1, g2, g3⟩
    · have hbw : bestWindowAux (s :: rest) i bs bsc =
          bestWindowAux rest (i + 1) bs bsc := by
        simp [bestWindowAux, hlt]
      have hmaxA : ∀ j, j < (done ++ [s]).length →
          (done ++ [s]).getD j 0 ≤ bsc := by
        intro j hj
        simp only [List.length_append, List.length_cons, List.length_nil] at hj
        by_cases hjd : j < done.length
        · rw [List.getD_append _ _ _ _ hjd]
          exact hmax j hjd
        · have hje : j = done.length := by omega
          rw [hje, hgetmid]
          omega
      have hleftA : ∀ j, j < bs → (done ++ [s]).getD j 0 < bsc := by
        intro j hj
        have hjd : j < done.length := by
          rcases hcur with ⟨h1, _⟩ | ⟨h1, _⟩ <;> omega
        rw [List.getD_append _ _ _ _ hjd]
        exact hleft j hj
      have hcurA : bs < i + 1 ∧ (done ++ [s]).getD bs 0 = bsc ∨
          bs = 0 ∧ bsc = 0 := by
        rcases hcur with ⟨h1, h2⟩ | h
        · refine Or.inl ⟨by omega, ?_⟩
          rw [List.getD_append _ _ _ _ (by omega)]
          exact h2
        · exact Or.inr h
      obtain ⟨g1, g2, g3⟩ := ih (i + 1) bs bsc (done ++ [s])
        (by simp [hlen]) hmaxA hleftA hcurA
      rw [hbw, hsplit, hlen2]
      exact ⟨g1, g2, g3⟩

/-- Corollary: on a non-empty score list the fold returns a valid leftmost
maximising index. -/
theorem bestWindowAux_argmax (scores : List Nat) (hne : 0 < scores.length) :
    (bestWindowAux scores 0 0 0).1 < scores.length ∧
    (∀ j, j < scores.length →
      scores.getD j 0 ≤ scores.getD (bestWindowAux scores 0 0 0).1 0) ∧
    (∀ j, j < (bestWindowAux scores 0 0 0).1 →
      scores.getD j 0 < scores.getD (bestWindowAux scores 0 0 0).1 0) := by
  obtain ⟨g1, g2, g3⟩ := bestWindowAux_spec scores 0 0 0 [] rfl
    (by simp) (by simp) (Or.inr ⟨rfl, rfl⟩)
  simp only [List.nil_append, List.length_nil, Nat.zero_add] at g1 g2 g3
  rcases g3 with ⟨hb, heq⟩ | ⟨hb0, hm0⟩
  · refine ⟨hb, fun j hj => ?_, fun j hj => ?_⟩
    · rw [heq]; exact g1 j hj
    · rw [heq]; exact g2 j hj
  · have h00 : scores.getD 0 0 = 0 :=
      Nat.le_zero.mp (le_of_le_of_eq (g1 0 hne) hm0)
    rw [hb0]
    refine ⟨hne, fun j hj => ?_, fun j hj => absurd hj (by omega)⟩
    have hj0 : scores.getD j 0 = 0 :=
      Nat.le_zero.mp (le_of_le_of_eq (g1 j hj) hm0)
    rw [h00, hj0]

/-- Claim C8 confirmed.  For a non-empty query: content of at most 30
whitespace tokens is returned whole; longer content yields the leftmost
30-token window maximising the number of query tokens contained
case-insensitively (every window scores no higher, every window strictly to
the left scores strictly lower), with `"..."` prepended exactly when the
window does not start at token 0 and appended exactly when it does not reach
the last token. -/
theorem C8_snippet (content query : String) (hq : query ≠ "") :
    ((splitWs content).length ≤ 30 → generateSnippet content query = content) ∧
    (30 < (splitWs content).length →
      ∃ b, b < (splitWs content).length - 30 + 1 ∧
        (∀ j, j < (splitWs content).length - 30 + 1 →
          windowScore (splitWs query) (((splitWs content).drop j).take 30) ≤
            windowScore (splitWs query) (((splitWs content).drop b).take 30)) ∧
        (∀ j, j < b →
          windowScore (splitWs query) (((splitWs content).drop j).take 30) <
            windowScore (splitWs query) (((splitWs content).drop b).take 30)) ∧
        generateSnippet content query =
          (if b + 30 < (splitWs content).length then
            (if 0 < b then
              "..." ++ joinWith " " (((splitWs content).drop b).take 30)
             else joinWith " " (((splitWs content).drop b).take 30)) ++ "..."
           else
            (if 0 < b then
              "..." ++ joinWith " " (((splitWs content).drop b).take 30)
             else joinWith " " (((splitWs content).drop b).take 30)))) := by
  constructor
  · intro hle
    simp [generateSnippet, hle]
  · intro hgt
    have hnle : ¬ (splitWs content).length ≤ 30 := by omega
    have hsl : ((List.range ((splitWs content).length - 30 + 1)).map
        (fun i => windowScore (splitWs query)
          (((splitWs content).drop i).take 30))).length =
        (splitWs content).length - 30 + 1 := by simp
    obtain ⟨hb, hmax, hleft⟩ := bestWindowAux_argmax
      ((List.range ((splitWs content).length - 30 + 1)).map
        (fun i => windowScore (splitWs query)
          (((splitWs content).drop i).take 30)))
      (by rw [hsl]; omega)
    rw [hsl] at hb
    refine ⟨(bestWindowAux
      ((List.range ((splitWs content).length - 30 + 1)).map
        (fun i => windowScore (splitWs query)
          (((splitWs content).drop i).take 30))) 0 0 0).1, hb, ?_, ?_, ?_⟩
    · intro j hj
      have := hmax j (by rw [hsl]; exact hj)
      rwa [getD_map_range _ _ _ hj, getD_map_range _ _ _ hb] at this
    · intro j hj
      have := hleft j hj
      rwa [getD_map_range _ _ _ (by omega), getD_map_range _ _ _ hb] at this
    · have hble : (bestWindowAux
          ((List.range ((splitWs content).length - 30 + 1)).map
            (fun i => windowScore (splitWs query)
              (((splitWs content).drop i).take 30))) 0 0 0).1 + 30 ≤
          (splitWs content).length := by omega
      have hmin : min ((bestWindowAux
          ((List.range ((splitWs content).length - 30 + 1)).map
            (fun i => windowScore (splitWs query)
              (((splitWs content).drop i).take 30))) 0 0 0).1 + 30)
          (splitWs content).length -
          (bestWindowAux
            ((List.range ((splitWs content).length - 30 + 1)).map
              (fun i => windowScore (splitWs query)
                (((splitWs content).drop i).take 30))) 0 0 0).1 = 30 := by
        omega
      simp only [generateSnippet, hnle, if_false, hmin]

/-- Claim C8 witness: short content is returned whole; on 31-token content
whose only match for `"bb"` sits in the rightmost window, the snippet is the
leftmost maximising window (start 1) with a leading `"..."` and no trailing
one. -/
theorem C8_witness :
    (generateSnippet "hello world" "hello" = "hello world") ∧
    (30 < (splitWs c8Long).length ∧
      ∃ b, b < (splitWs c8Long).length - 30 + 1 ∧
        (∀ j, j < (splitWs c8Long).length - 30 + 1 →
          windowScore (splitWs "bb") (((splitWs c8Long).drop j).take 30) ≤
            windowScore (splitWs "bb") (((splitWs c8Long).drop b).take 30)) ∧
        (∀ j, j < b →
          windowScore (splitWs "bb") (((splitWs c8Long).drop j).take 30) <
            windowScore (splitWs "bb") (((splitWs c8Long).drop b).take 30)) ∧
        generateSnippet c8Long "bb" =
          (if b + 30 < (splitWs c8Long).length then
            (if 0 < b then
              "..." ++ joinWith " " (((splitWs c8Long).drop b).take 30)
             else joinWith " " (((splitWs c8Long).drop b).take 30)) ++ "..."
           else
            (if 0 < b then
              "..." ++ joinWith " " (((splitWs c8Long).drop b).take 30)
             else joinWith " " (((splitWs c8Long).drop b).take 30)))) :=
  ⟨(C8_snippet "hello world" "hello" (by decide)).1 (by decide),
   by decide, (C8_snippet c8Long "bb" (by decide)).2 (by decide)⟩

/-- Claim C9 counterexample.  The claim says the sidecar is written via a
temporary file plus rename, so a reader can never observe partial content.
In fact `save_metadata` performs a direct write: saving the two-character
content `"ab"` lets a concurrent reader observe the partial content `"a"`,
and the operation trace contains no rename at all. -/
theorem C9_counterexample :
    some "a" ∈ readerStates c9Target emptyFs
      (saveMetadataOps "/cache" c9Target "ab") ∧
    some "a" ≠ some "ab" ∧
    (saveMetadataOps "/cache" c9Target "ab").countP isRenameOp = 0 := by
  decide

/-- Claim C9 amended.  `save_metadata` writes the sidecar with a single
direct `fs::write` (after `create_dir_all`); no temporary file or rename is
involved, so while the write is in progress a concurrent reader of the
sidecar path can observe a partially written file — in particular the empty
prefix, which differs from the full content whenever the content is
non-empty. -/
theorem C9_amended (cache_dir metadata_file content : String) (fs : Fs)
    (h : 0 < content.toList.length) :
    (saveMetadataOps cache_dir metadata_file content).countP isRenameOp = 0 ∧
    some (takeStr content 0) ∈
      readerStates metadata_file fs (saveMetadataOps cache_dir metadata_file content) ∧
    takeStr content 0 ≠ content := by
  refine ⟨?_, ?_, ?_⟩
  · simp [saveMetadataOps, isRenameOp]
  · have hmem : some (takeStr content 0) ∈
        (List.range (content.toList.length + 1)).map
          (fun k => some (takeStr content k)) :=
      List.mem_map.mpr ⟨0, List.mem_range.mpr (Nat.succ_pos _), rfl⟩
    simp only [saveMetadataOps, readerStates, runOp, beq_self_eq_true, if_true,
      List.nil_append, List.cons_append, List.append_nil]
    exact List.mem_cons_of_mem _ (List.mem_cons_of_mem _
      (List.mem_append_left _ hmem))
  · intro he
    have h2 := congrArg String.toList he
    simp [takeStr] at h2
    have h3 : content.toList = [] := by simpa [String.toList] using h2
    rw [h3] at h
    simp at h

/-- A kept record carries the counter value at which it was parsed. -/
theorem parseRawMessage_seq (cfg : Limits) (pts : String → Option Int)
    (em : String → ExtractedMeta) (raw : RawJsonlMessage) (project : String)
    (n : Nat) (fai : Option String) (e : ConversationEntry)
    (h : parseRawMessage cfg pts em raw project n fai = some e) :
    e.sequence_num = n := by
  simp only [parseRawMessage] at h
  repeat' split at h
  all_goals first
    | exact Option.noConfusion h
    | (cases h; rfl)

/-- Records kept by the line loop have contiguous sequence numbers from the
starting counter. -/
theorem parseLinesAux_seq (cfg : Limits) (pts : String → Option Int)
    (em : String → ExtractedMeta) (project : String) (fai : Option String)
    (lines : List LineValue) :
    ∀ n i e, (parseLinesAux cfg pts em project fai lines n)[i]? = some e →
      e.sequence_num = n + i := by
  induction lines with
  | nil => intro n i e h; simp [parseLinesAux] at h
  | cons l ls ih =>
    intro n i e h
    cases l with
    | blank => simpa using ih n i e h
    | invalidJson => simpa using ih n i e h
    | msg raw =>
      rw [parseLinesAux] at h
      cases hp : parseRawMessage cfg pts em raw project n fai with
      | none => rw [hp] at h; exact ih n i e h
      | some a =>
        rw [hp] at h
        cases i with
        | zero =>
          simp at h
          subst h
          simpa using parseRawMessage_seq cfg pts em raw project n fai a hp
        | succ j =>
          simp only [List.getElem?_cons_succ] at h
          have := ih (n + 1) j e h
          omega

/-- Claim C3 confirmed.  `parse_file` returns the kept records in file order
with contiguous sequence numbers: the record at position `i` of the result
has `sequence_num = i`; dropped lines (malformed JSON, blank lines, wrong
type, missing required field, empty normalized content) consume no number. -/
theorem C3_sequence_contiguous (cfg : Limits) (pts : String → Option Int)
    (em : String → ExtractedMeta) (path : LogFilePath) (lines : List LineValue)
    (i : Nat) (e : ConversationEntry)
    (h : (parseFile cfg pts em path lines)[i]? = some e) :
    e.sequence_num = i := by
  have := parseLinesAux_seq cfg pts em path.parentName
    (fileAgentId path.fileName) lines 0 i e h
  omega

/-- Claim C3 witness: a file with a kept line, a malformed line, and another
kept line yields records with sequence numbers 0 and 1; the second kept
record sits at position 1 with `sequence_num = 1`. -/
theorem C3_witness :
    ((parseFile cfg0 pts0 em0 lp0 [.msg rawA, .invalidJson, .msg rawB])[1]? =
      some { uuid := "u2", session_id := "bbbb-2222", project_path := "proj",
             message_type := MessageType.User, content := "world",
             sequence_num := 1 }) ∧
    ({ uuid := "u2", session_id := "bbbb-2222", project_path := "proj",
       message_type := MessageType.User, content := "world",
       sequence_num := 1 } : ConversationEntry).sequence_num = 1 :=
  ⟨by decide, C3_sequence_contiguous cfg0 pts0 em0 lp0
    [.msg rawA, .invalidJson, .msg rawB] 1 _ (by decide)⟩

/-- Claim C9 witness. -/
theorem C9_witness :
    (saveMetadataOps "/cache" c9Target "ab").countP isRenameOp = 0 ∧
    some (takeStr "ab" 0) ∈
      readerStates c9Target emptyFs (saveMetadataOps "/cache" c9Target "ab") ∧
    takeStr "ab" 0 ≠ "ab" :=
  C9_amended "/cache" c9Target "ab" emptyFs (by decide)

end ConvSearch
